import Mathlib

/-!
Verification of the maze core (maze generation, cell queries, ray casting,
player collision) of the Blind-Maze-Game repository.

The Python source is shallowly embedded:
* machine floats are modelled by rationals; the deliberate IEEE infinities
  used by ray_cast are modelled by an explicit Option layer (none = the
  sign-infinite sentinel pair);
* numpy's uint8 grid is modelled by a total function to Nat whose values
  stay below 16 (bitmask of the four walls);
* exceptions (numpy IndexError, numpy ValueError for negative shapes,
  OverflowError from floor/round of an infinity) are modelled by Except;
* the random neighbour shuffle of Maze._generate is modelled by an oracle
  giving, for each cell, the permutation of the four (wall, offset) pairs
  used when that cell is expanded.
-/

namespace BlindMaze

/-- The Python exceptions the embedded core can raise. -/
inductive PyError : Type
  | indexError
  | valueError
  | overflowError
  deriving DecidableEq, Repr

/-- `Cell` from maze.py: coordinates plus the four wall flags. -/
structure Cell where
  x : ℤ
  y : ℤ
  left : Bool
  right : Bool
  top : Bool
  bottom : Bool
  deriving DecidableEq, Repr

/-- `Maze` from maze.py.  `grid (i, j)` is the wall bitmask of the cell in
column `i`, row `j` (the Python code stores it as `self.grid[j, i]`);
only indices `0 ≤ i < width`, `0 ≤ j < height` are meaningful. -/
structure Maze where
  width : ℕ
  height : ℕ
  grid : ℤ × ℤ → ℕ

/-- A maze as produced by `Maze.__init__` for nonnegative sizes:
`np.full((height, width), 15)` — every wall of every cell present. -/
def Maze.init (w h : ℕ) : Maze := ⟨w, h, fun _ => 15⟩

/-- `Maze.__init__` with arbitrary integer sizes.  `np.full` raises
ValueError for a negative dimension and accepts zero-sized shapes. -/
def mazeNew (w h : ℤ) : Except PyError Maze :=
  if w < 0 ∨ h < 0 then .error .valueError
  else .ok (Maze.init w.toNat h.toNat)

/-- numpy index resolution for one axis of length `n`: a negative index `i`
is shifted by `n`, and the result must land in `[0, n)` or the access
raises IndexError. -/
def npIndex (n : ℕ) (i : ℤ) : Option ℤ :=
  if 0 ≤ (if i < 0 then i + n else i) ∧ (if i < 0 then i + n else i) < n
  then some (if i < 0 then i + n else i) else none

/-- numpy index resolution accepts exactly `[-n, n)` and resolves to the
nonnegative representative `i % n`. -/
theorem npIndex_eq (n : ℕ) (i : ℤ) :
    npIndex n i = if -(n : ℤ) ≤ i ∧ i < n then some (i % n) else none := by
  unfold npIndex
  by_cases hi : i < 0
  · simp only [if_pos hi]
    by_cases hr : -(n : ℤ) ≤ i
    · have h1 : (i + (n : ℤ) * 1) % n = i % n := @Int.add_mul_emod_self_left i n 1
      have h2 : (i + (n : ℤ) * 1) % n = i + n * 1 := Int.emod_eq_of_lt (by omega) (by omega)
      have h3 : i % (n : ℤ) = i + n := by rw [← h1, h2]; ring
      rw [if_pos (by omega : (0 : ℤ) ≤ i + n ∧ i + (n : ℤ) < n),
        if_pos ⟨hr, by omega⟩, h3]
    · rw [if_neg (by omega : ¬((0 : ℤ) ≤ i + n ∧ i + (n : ℤ) < n)),
        if_neg (by omega : ¬(-(n : ℤ) ≤ i ∧ i < n))]
  · simp only [if_neg hi]
    by_cases hr : i < n
    · rw [if_pos ⟨by omega, hr⟩, if_pos ⟨by omega, hr⟩,
        Int.emod_eq_of_lt (by omega) hr]
    · rw [if_neg (by omega : ¬((0 : ℤ) ≤ i ∧ i < (n : ℤ))),
        if_neg (by omega : ¬(-(n : ℤ) ≤ i ∧ i < n))]

/-- `Maze.cell_at` from maze.py: reads `self.grid[y, x]` (with numpy's
negative-index wrapping and bounds check) and decodes the mask with
bits 2/8/1/4 into left/right/top/bottom. -/
def Maze.cellAt (m : Maze) (x y : ℤ) : Except PyError Cell :=
  match npIndex m.height y, npIndex m.width x with
  | some j, some i =>
      let v := m.grid (i, j)
      .ok ⟨x, y, decide (v &&& 2 ≠ 0), decide (v &&& 8 ≠ 0),
           decide (v &&& 1 ≠ 0), decide (v &&& 4 ≠ 0)⟩
  | _, _ => .error .indexError

/-- C9 counterexample: constructing a maze with zero width raises nothing —
`np.full((1, 0), 15)` succeeds, so `Maze(0, 1)` is built normally,
refuting the claim that zero sizes fail at construction time. -/
theorem mazeNew_zero_width_succeeds :
    ∃ m, mazeNew 0 1 = Except.ok m ∧ m.width = 0 ∧ m.height = 1 :=
  ⟨Maze.init 0 1, rfl, rfl, rfl⟩

/-- C9 (amended): construction succeeds for every pair of nonnegative sizes,
including zero, producing the all-walls grid; only a negative size fails
(numpy ValueError for a negative shape). -/
theorem mazeNew_spec (w h : ℤ) :
    (0 ≤ w → 0 ≤ h → mazeNew w h = Except.ok (Maze.init w.toNat h.toNat))
    ∧ ((w < 0 ∨ h < 0) → mazeNew w h = Except.error PyError.valueError) := by
  constructor
  · intro hw hh
    simp [mazeNew, not_lt.mpr hw, not_lt.mpr hh]
  · intro hneg
    simp [mazeNew, hneg]

/-- Witness for `mazeNew_spec` at width 0, height 3. -/
theorem mazeNew_spec_witness :
    mazeNew 0 3 = Except.ok (Maze.init 0 3) :=
  (mazeNew_spec 0 3).1 (by decide) (by decide)

/-- C5 counterexample: `cell_at(-1, 0)` on a fresh 1×1 maze does not raise;
numpy wraps the negative index and the call returns a cell, refuting the
claim that every out-of-`[0,width)` coordinate fails with a range error. -/
theorem cellAt_neg_no_error :
    (Maze.init 1 1).cellAt (-1) 0 = Except.ok ⟨-1, 0, true, true, true, true⟩ := rfl

/-- C5 (amended): `cell_at` raises IndexError exactly when a coordinate is
outside numpy's accepted range `[-size, size)`; coordinates in `[-size, 0)`
do not fail (they wrap to the far edge instead of being rejected). -/
theorem cellAt_error_iff (m : Maze) (x y : ℤ) :
    (∃ e, m.cellAt x y = Except.error e)
      ↔ (x < -(m.width : ℤ) ∨ (m.width : ℤ) ≤ x
          ∨ y < -(m.height : ℤ) ∨ (m.height : ℤ) ≤ y) := by
  unfold Maze.cellAt
  rw [npIndex_eq, npIndex_eq]
  by_cases hy : -(m.height : ℤ) ≤ y ∧ y < m.height
  · rw [if_pos hy]
    by_cases hx : -(m.width : ℤ) ≤ x ∧ x < m.width
    · rw [if_pos hx]
      constructor
      · rintro ⟨e, he⟩
        exact absurd he (by simp)
      · intro hout
        omega
    · rw [if_neg hx]
      constructor
      · intro _
        omega
      · intro _
        exact ⟨.indexError, rfl⟩
  · rw [if_neg hy]
    constructor
    · intro _
      omega
    · intro _
      exact ⟨.indexError, rfl⟩

/-- C10: for a coordinate pair with a negative component inside numpy's
accepted range (and the other component in range as well), `cell_at`
succeeds: it returns a cell carrying the given (possibly negative)
coordinates whose wall flags are decoded from the stored mask of the cell
at `(x mod width, y mod height)` — negative indices wrap to the far edge. -/
theorem cellAt_negative_wrap (m : Maze) (x y : ℤ)
    (hx1 : -(m.width : ℤ) ≤ x) (hx2 : x < m.width)
    (hy1 : -(m.height : ℤ) ≤ y) (hy2 : y < m.height)
    (hneg : x < 0 ∨ y < 0) :
    m.cellAt x y =
      Except.ok ⟨x, y,
        decide (m.grid (x % m.width, y % m.height) &&& 2 ≠ 0),
        decide (m.grid (x % m.width, y % m.height) &&& 8 ≠ 0),
        decide (m.grid (x % m.width, y % m.height) &&& 1 ≠ 0),
        decide (m.grid (x % m.width, y % m.height) &&& 4 ≠ 0)⟩ := by
  unfold Maze.cellAt
  rw [npIndex_eq, npIndex_eq, if_pos ⟨hy1, hy2⟩, if_pos ⟨hx1, hx2⟩]

/-- Witness for `cellAt_negative_wrap`: on a fresh 2×1 maze the query at
(-1, 0) wraps to the stored mask of cell (1, 0) — all walls present. -/
theorem cellAt_negative_wrap_witness :
    (Maze.init 2 1).cellAt (-1) 0 =
      Except.ok ⟨-1, 0,
        decide ((Maze.init 2 1).grid ((-1) % (2 : ℕ), 0 % (1 : ℕ)) &&& 2 ≠ 0),
        decide ((Maze.init 2 1).grid ((-1) % (2 : ℕ), 0 % (1 : ℕ)) &&& 8 ≠ 0),
        decide ((Maze.init 2 1).grid ((-1) % (2 : ℕ), 0 % (1 : ℕ)) &&& 1 ≠ 0),
        decide ((Maze.init 2 1).grid ((-1) % (2 : ℕ), 0 % (1 : ℕ)) &&& 4 ≠ 0)⟩ :=
  cellAt_negative_wrap (Maze.init 2 1) (-1) 0 (by decide) (by decide)
    (by decide) (by decide) (Or.inl (by decide))

instance {ε α : Type} [DecidableEq ε] [DecidableEq α] : DecidableEq (Except ε α) :=
  fun a b =>
  match a, b with
  | .ok x, .ok y => decidable_of_iff (x = y) (by simp)
  | .error e, .error f => decidable_of_iff (e = f) (by simp)
  | .ok _, .error _ => isFalse (by simp)
  | .error _, .ok _ => isFalse (by simp)

/-- Python `q % 1`: the fractional part, always in `[0, 1)`. -/
def fracPart (q : ℚ) : ℚ := q - ⌊q⌋

/-- Python `round` (banker's rounding, half to even), as applied to the
integral crossing coordinate inside ray_cast. -/
def pyRound (q : ℚ) : ℤ :=
  if q - ⌊q⌋ < 1/2 then ⌊q⌋
  else if 1/2 < q - ⌊q⌋ then ⌊q⌋ + 1
  else if 2 ∣ ⌊q⌋ then ⌊q⌋ else ⌊q⌋ + 1

/-- The loop-invariant data of one ray_cast call: the maze plus the signs
and per-crossing increments computed before the loop.  The increments are
only consulted on the branch whose crossing is finite, which is exactly
when the corresponding divisor was nonzero. -/
structure RayEnv where
  maze : Maze
  xSign : ℚ
  ySign : ℚ
  xInc : ℚ
  yInc : ℚ

/-- The comparison `np.all(signs * next_h <= signs * next_v)` of ray_cast.
A `none` crossing is the sign-infinite sentinel pair
`(x_sign * inf, y_sign * inf)`, whose componentwise product with `signs`
is `(+inf, +inf)`. -/
def rayLE (e : RayEnv) : Option (ℚ × ℚ) → Option (ℚ × ℚ) → Bool
  | none, none => true
  | none, some _ => false
  | some _, none => true
  | some hc, some vc =>
      decide (e.xSign * hc.1 ≤ e.xSign * vc.1 ∧ e.ySign * hc.2 ≤ e.ySign * vc.2)

/-- The `while True` loop of ray_cast, with explicit fuel (`none` result =
fuel exhausted; the Python loop is unbounded).  When the selected crossing
is the infinite sentinel — which only happens when both crossings are
sentinels, i.e. for the zero direction vector, whose signs are both -1 —
the bound check `-inf >= width` is false and `floor(-inf)` raises
OverflowError. -/
def rayLoop (e : RayEnv) : ℕ → Option (ℚ × ℚ) → Option (ℚ × ℚ) →
    Option (Except PyError (ℚ × ℚ))
  | 0, _, _ => none
  | fuel + 1, hC, vC =>
    if rayLE e hC vC then
      match hC with
      | none => some (.error .overflowError)
      | some c =>
        if (e.maze.width : ℚ) ≤ c.1 ∨ (e.maze.width : ℚ) ≤ c.2 then some (.ok c)
        else
          match e.maze.cellAt ⌊c.1⌋ (pyRound c.2) with
          | .error er => some (.error er)
          | .ok cell =>
            if cell.top then some (.ok c)
            else rayLoop e fuel (some (c.1 + e.xInc, c.2 + e.ySign)) vC
    else
      match vC with
      | none => some (.error .overflowError)
      | some c =>
        if (e.maze.width : ℚ) ≤ c.1 ∨ (e.maze.width : ℚ) ≤ c.2 then some (.ok c)
        else
          match e.maze.cellAt (pyRound c.1) ⌊c.2⌋ with
          | .error er => some (.error er)
          | .ok cell =>
            if cell.left then some (.ok c)
            else rayLoop e fuel hC (some (c.1 + e.xSign, c.2 + e.yInc))

/-- `ray_cast` from ray_casting.py over exact rationals.  The IEEE
infinities produced when `dx = 0` or `dy = 0` (infinite increment, hence a
non-finite candidate crossing that the code replaces by the sign-infinite
pair) are modelled by a `none` crossing. -/
def rayCast (fuel : ℕ) (x y dx dy : ℚ) (m : Maze) :
    Option (Except PyError (ℚ × ℚ)) :=
  let xSign : ℚ := if 0 < dx then 1 else -1
  let ySign : ℚ := if 0 < dy then 1 else -1
  let xInc : ℚ := dx / |dy|
  let yInc : ℚ := dy / |dx|
  let hC : Option (ℚ × ℚ) :=
    if dy = 0 then none
    else if 0 < ySign then some (x + xInc * (1 - fracPart y), (⌈y⌉ : ℚ))
    else some (x + xInc * fracPart y, (⌊y⌋ : ℚ))
  let vC : Option (ℚ × ℚ) :=
    if dx = 0 then none
    else if 0 < xSign then some ((⌈x⌉ : ℚ), y + yInc * (1 - fracPart x))
    else some ((⌊x⌋ : ℚ), y + yInc * fracPart x)
  rayLoop ⟨m, xSign, ySign, xInc, yInc⟩ fuel hC vC

/-- Zeta-expanded form of `rayCast` (definitional). -/
theorem rayCast_eq (fuel : ℕ) (x y dx dy : ℚ) (m : Maze) :
    rayCast fuel x y dx dy m =
      rayLoop ⟨m, if 0 < dx then 1 else -1, if 0 < dy then 1 else -1,
        dx / |dy|, dy / |dx|⟩ fuel
        (if dy = 0 then none
         else if 0 < (if 0 < dy then (1 : ℚ) else -1) then
           some (x + dx / |dy| * (1 - fracPart y), (⌈y⌉ : ℚ))
         else some (x + dx / |dy| * fracPart y, (⌊y⌋ : ℚ)))
        (if dx = 0 then none
         else if 0 < (if 0 < dx then (1 : ℚ) else -1) then
           some ((⌈x⌉ : ℚ), y + dy / |dx| * (1 - fracPart x))
         else some ((⌊x⌋ : ℚ), y + dy / |dx| * fracPart x)) := rfl

/-- One unfolding of the ray_cast loop (definitional). -/
theorem rayLoop_succ (e : RayEnv) (fuel : ℕ) (hC vC : Option (ℚ × ℚ)) :
    rayLoop e (fuel + 1) hC vC =
    (if rayLE e hC vC then
      match hC with
      | none => some (.error .overflowError)
      | some c =>
        if (e.maze.width : ℚ) ≤ c.1 ∨ (e.maze.width : ℚ) ≤ c.2 then some (.ok c)
        else
          match e.maze.cellAt ⌊c.1⌋ (pyRound c.2) with
          | .error er => some (.error er)
          | .ok cell =>
            if cell.top then some (.ok c)
            else rayLoop e fuel (some (c.1 + e.xInc, c.2 + e.ySign)) vC
    else
      match vC with
      | none => some (.error .overflowError)
      | some c =>
        if (e.maze.width : ℚ) ≤ c.1 ∨ (e.maze.width : ℚ) ≤ c.2 then some (.ok c)
        else
          match e.maze.cellAt (pyRound c.1) ⌊c.2⌋ with
          | .error er => some (.error er)
          | .ok cell =>
            if cell.left then some (.ok c)
            else rayLoop e fuel hC (some (c.1 + e.xSign, c.2 + e.yInc))) := rfl

theorem Maze.init_width (w h : ℕ) : (Maze.init w h).width = w := rfl

theorem Maze.init_height (w h : ℕ) : (Maze.init w h).height = h := rfl

theorem floor_half : ⌊(1/2 : ℚ)⌋ = 0 := by
  rw [Int.floor_eq_zero_iff]
  exact ⟨by norm_num, by norm_num⟩

theorem ceil_half : ⌈(1/2 : ℚ)⌉ = 1 := by
  rw [Int.ceil_eq_iff] <;> norm_num

theorem fracPart_half : fracPart (1/2 : ℚ) = 1/2 := by
  unfold fracPart
  rw [floor_half]
  norm_num

theorem pyRound_one : pyRound (1 : ℚ) = 1 := by
  unfold pyRound
  norm_num

theorem floor_nine20 : ⌊(9/20 : ℚ)⌋ = 0 := by
  rw [Int.floor_eq_zero_iff]
  exact ⟨by norm_num, by norm_num⟩

theorem cellAt_init31 : (Maze.init 3 1).cellAt 0 1 = .error .indexError := rfl

/-- C3: the failing input.  On a 3×1 maze with all walls present, the ray
from (0.5, 0.5) with direction (-1, 10) reaches the horizontal crossing
(0.45, 1.0), which passes the width-only bound check (both coordinates
< 3), and `cell_at(0, 1)` then indexes row 1 of a 1-row grid: IndexError
instead of the termination the claim promises. -/
theorem rayCast_nonsquare_index_error :
    rayCast 5 (1/2) (1/2) (-1) 10 (Maze.init 3 1) =
      some (.error .indexError) := by
  rw [rayCast_eq]
  norm_num [fracPart_half, ceil_half, floor_half]
  rw [rayLoop_succ]
  norm_num [rayLE, Maze.init_width, floor_nine20, pyRound_one, cellAt_init31]

/-- C8 counterexample: with the zero direction vector ray_cast does fail on
its first iteration, but with an OverflowError — `floor` applied to the
infinite sentinel crossing — not with an argument-validation error: the
code contains no zero-vector check. -/
theorem rayCast_zero_dir_not_value_error :
    rayCast 5 (1/2) (1/2) 0 0 (Maze.init 1 1) = some (.error .overflowError)
    ∧ rayCast 5 (1/2) (1/2) 0 0 (Maze.init 1 1) ≠ some (.error .valueError) := by
  refine ⟨rfl, ?_⟩
  rw [show rayCast 5 (1/2) (1/2) 0 0 (Maze.init 1 1) =
    some (.error .overflowError) from rfl]
  decide

/-- C8 (amended): for every maze, start point and fuel, the zero direction
vector makes ray_cast fail on the very first loop iteration with an
OverflowError (floor of the infinite sentinel); it does not loop. -/
theorem rayCast_zero_dir (m : Maze) (x y : ℚ) (fuel : ℕ) :
    rayCast (fuel + 1) x y 0 0 m = some (.error .overflowError) := rfl

/-- C6: on a fresh 1×1 maze the ray from the center along (+1, 0) returns
exactly (1.0, 0.5); and in general, whenever the loop's comparison selects
a finite crossing with either coordinate ≥ maze.width, the loop stops and
returns that crossing point. -/
theorem rayCast_boundary_hit :
    rayCast 5 (1/2) (1/2) 1 0 (Maze.init 1 1) = some (.ok (1, 1/2))
    ∧ (∀ (e : RayEnv) (fuel : ℕ) (vC : Option (ℚ × ℚ)) (a b : ℚ),
        rayLE e (some (a, b)) vC = true →
        ((e.maze.width : ℚ) ≤ a ∨ (e.maze.width : ℚ) ≤ b) →
        rayLoop e (fuel + 1) (some (a, b)) vC = some (.ok (a, b)))
    ∧ (∀ (e : RayEnv) (fuel : ℕ) (hC : Option (ℚ × ℚ)) (a b : ℚ),
        rayLE e hC (some (a, b)) = false →
        ((e.maze.width : ℚ) ≤ a ∨ (e.maze.width : ℚ) ≤ b) →
        rayLoop e (fuel + 1) hC (some (a, b)) = some (.ok (a, b))) := by
  refine ⟨?_, ?_, ?_⟩
  · rw [rayCast_eq]
    norm_num [fracPart_half, ceil_half, floor_half]
    rw [rayLoop_succ]
    norm_num [rayLE, Maze.init_width]
  · intro e fuel vC a b hle hb
    rw [rayLoop_succ, hle]
    simp [hb]
  · intro e fuel hC a b hle hb
    rw [rayLoop_succ, hle]
    simp [hb]

/-- Witness for the general boundary-stop part of `rayCast_boundary_hit`:
a crossing at x = 2 in a 2-wide maze is returned unchanged. -/
theorem rayCast_boundary_hit_witness :
    rayLoop ⟨Maze.init 2 2, 1, 1, 1, 1⟩ 4 (some (2, 1/2)) none =
      some (.ok (2, 1/2)) :=
  rayCast_boundary_hit.2.1 ⟨Maze.init 2 2, 1, 1, 1, 1⟩ 3 none 2 (1/2)
    rfl (Or.inl (by norm_num [Maze.init_width]))

/-- `Player` from game.py: an axis-aligned rectangle with a velocity. -/
structure Player where
  x : ℚ
  y : ℚ
  xVelocity : ℚ
  yVelocity : ℚ
  width : ℚ
  height : ℚ

/-- `astype(np.int32)` applied to a center coordinate: truncation toward
zero. -/
def truncToInt (q : ℚ) : ℤ := if 0 ≤ q then ⌊q⌋ else -⌊-q⌋

/-- `Player.update`: position += velocity * dt. -/
def Player.update (p : Player) (dt : ℚ) : Player :=
  { p with x := p.x + p.xVelocity * dt, y := p.y + p.yVelocity * dt }

/-- `Game.update` from game.py for a given maze: read the cell holding the
player's center (`current_cell`, which can raise IndexError), move the
player, then clamp each axis independently against that cell's walls.
Python evaluates `current_cell()` before mutating the player, so on an
exception the player is unchanged. -/
def gameUpdate (m : Maze) (p : Player) (dt : ℚ) : Except PyError Player :=
  match m.cellAt (truncToInt (p.x + p.width / 2)) (truncToInt (p.y + p.height / 2)) with
  | .error e => .error e
  | .ok lastCell =>
    let p1 := p.update dt
    let x2 :=
      if lastCell.left = true ∧ p1.x < (lastCell.x : ℚ) then (lastCell.x : ℚ)
      else if lastCell.right = true ∧ (lastCell.x : ℚ) + 1 ≤ p1.x + p1.width then
        (lastCell.x : ℚ) + 1 - p1.width
      else p1.x
    let y2 :=
      if lastCell.top = true ∧ p1.y < (lastCell.y : ℚ) then (lastCell.y : ℚ)
      else if lastCell.bottom = true ∧ (lastCell.y : ℚ) + 1 ≤ p1.y + p1.height then
        (lastCell.y : ℚ) + 1 - p1.height
      else p1.y
    .ok { p1 with x := x2, y := y2 }

/-- The player state after `Game.update`: the updated player on success,
the untouched player if the update raised (the only raise site runs before
any mutation). -/
def updateOutcome (m : Maze) (p : Player) (dt : ℚ) : Player :=
  match gameUpdate m p dt with
  | .ok q => q
  | .error _ => p

/-- C4: in a fresh 1×1 maze (all four walls present), an agent of size ≤ 1
whose rectangle starts entirely inside the unit cell is still entirely
inside `[0,1]×[0,1]` after one `Game.update`, for every `dt` and every
velocity. -/
theorem update_containment (p : Player) (dt : ℚ)
    (hw0 : 0 ≤ p.width) (hw1 : p.width ≤ 1)
    (hh0 : 0 ≤ p.height) (hh1 : p.height ≤ 1)
    (hx0 : 0 ≤ p.x) (hx1 : p.x + p.width ≤ 1)
    (hy0 : 0 ≤ p.y) (hy1 : p.y + p.height ≤ 1) :
    0 ≤ (updateOutcome (Maze.init 1 1) p dt).x
    ∧ (updateOutcome (Maze.init 1 1) p dt).x
        + (updateOutcome (Maze.init 1 1) p dt).width ≤ 1
    ∧ 0 ≤ (updateOutcome (Maze.init 1 1) p dt).y
    ∧ (updateOutcome (Maze.init 1 1) p dt).y
        + (updateOutcome (Maze.init 1 1) p dt).height ≤ 1 := by
  have hcx0 : 0 ≤ p.x + p.width / 2 := by linarith
  have hcx1 : p.x + p.width / 2 ≤ 1 := by linarith
  have hcy0 : 0 ≤ p.y + p.height / 2 := by linarith
  have hcy1 : p.y + p.height / 2 ≤ 1 := by linarith
  by_cases hcx : p.x + p.width / 2 < 1
  · by_cases hcy : p.y + p.height / 2 < 1
    · have htx : truncToInt (p.x + p.width / 2) = 0 := by
        unfold truncToInt
        rw [if_pos hcx0]
        exact Int.floor_eq_zero_iff.mpr ⟨hcx0, hcx⟩
      have hty : truncToInt (p.y + p.height / 2) = 0 := by
        unfold truncToInt
        rw [if_pos hcy0]
        exact Int.floor_eq_zero_iff.mpr ⟨hcy0, hcy⟩
      have hcell : (Maze.init 1 1).cellAt 0 0 =
          Except.ok ⟨0, 0, true, true, true, true⟩ := rfl
      unfold updateOutcome gameUpdate
      rw [htx, hty, hcell]
      simp only [Player.update]
      split_ifs with h1 h2 h3 h4 h5 h6 h7 h8 h9 h10 h11 h12 <;>
        refine ⟨?_, ?_, ?_, ?_⟩ <;> simp_all <;> linarith
    · have hcy' : p.y + p.height / 2 = 1 := le_antisymm hcy1 (not_lt.mp hcy)
      have hty : truncToInt (p.y + p.height / 2) = 1 := by
        unfold truncToInt
        rw [if_pos hcy0, hcy']
        exact Int.floor_one
      obtain ⟨e, he⟩ := (cellAt_error_iff (Maze.init 1 1)
          (truncToInt (p.x + p.width / 2)) (truncToInt (p.y + p.height / 2))).mpr
        (by rw [hty]; exact Or.inr (Or.inr (Or.inr (by norm_num [Maze.init_height]))))
      unfold updateOutcome gameUpdate
      rw [he]
      exact ⟨hx0, hx1, hy0, hy1⟩
  · have hcx' : p.x + p.width / 2 = 1 := le_antisymm hcx1 (not_lt.mp hcx)
    have htx : truncToInt (p.x + p.width / 2) = 1 := by
      unfold truncToInt
      rw [if_pos hcx0, hcx']
      exact Int.floor_one
    obtain ⟨e, he⟩ := (cellAt_error_iff (Maze.init 1 1)
        (truncToInt (p.x + p.width / 2)) (truncToInt (p.y + p.height / 2))).mpr
      (by rw [htx]; exact Or.inr (Or.inl (by norm_num [Maze.init_width])))
    unfold updateOutcome gameUpdate
    rw [he]
    exact ⟨hx0, hx1, hy0, hy1⟩

/-- Witness for `update_containment`: a ½×½ agent at (¼, ¼) moving hard
down-right for 7 seconds stays inside the unit cell. -/
theorem update_containment_witness :
    0 ≤ (updateOutcome (Maze.init 1 1) ⟨1/4, 1/4, 5, 5, 1/2, 1/2⟩ 7).x
    ∧ (updateOutcome (Maze.init 1 1) ⟨1/4, 1/4, 5, 5, 1/2, 1/2⟩ 7).x
        + (updateOutcome (Maze.init 1 1) ⟨1/4, 1/4, 5, 5, 1/2, 1/2⟩ 7).width ≤ 1
    ∧ 0 ≤ (updateOutcome (Maze.init 1 1) ⟨1/4, 1/4, 5, 5, 1/2, 1/2⟩ 7).y
    ∧ (updateOutcome (Maze.init 1 1) ⟨1/4, 1/4, 5, 5, 1/2, 1/2⟩ 7).y
        + (updateOutcome (Maze.init 1 1) ⟨1/4, 1/4, 5, 5, 1/2, 1/2⟩ 7).height ≤ 1 :=
  update_containment ⟨1/4, 1/4, 5, 5, 1/2, 1/2⟩ 7 (by norm_num) (by norm_num)
    (by norm_num) (by norm_num) (by norm_num) (by norm_num) (by norm_num)
    (by norm_num)

/-- The four (wall-number, offset) pairs enumerated in `Maze._generate`:
wall 0 ↦ (0, -1) (up), 1 ↦ (-1, 0) (left), 2 ↦ (0, 1) (down),
3 ↦ (1, 0) (right). -/
def dirOffset : Fin 4 → ℤ × ℤ
  | 0 => (0, -1)
  | 1 => (-1, 0)
  | 2 => (0, 1)
  | 3 => (1, 0)

/-- The neighbour of `p` in direction `d`. -/
def nbr (p : ℤ × ℤ) (d : Fin 4) : ℤ × ℤ :=
  (p.1 + (dirOffset d).1, p.2 + (dirOffset d).2)

/-- `1 << w`, the wall bit for direction `d`. -/
def wallMask (d : Fin 4) : ℕ := 1 <<< (d : ℕ)

/-- The complementary mask: `mask >> 2` if `mask >= 4` else `mask << 2`. -/
def oppMask (wm : ℕ) : ℕ := if 4 ≤ wm then wm >>> 2 else wm <<< 2

/-- The complementary direction. -/
def oppDir : Fin 4 → Fin 4
  | 0 => 2
  | 1 => 3
  | 2 => 0
  | 3 => 1

/-- `v & ~mask` on a uint8 value: numpy's complement of a mask below 256 is
`255 - mask`. -/
def clearBits (v mask : ℕ) : ℕ := v &&& (255 - mask)

/-- The mutable state of `Maze._generate`: the wall grid and the visited
array, both indexed by (x, y) cell positions. -/
structure GenState where
  grid : ℤ × ℤ → ℕ
  visited : ℤ × ℤ → Bool

/-- The in-bounds test on line 57 of maze.py. -/
def inGrid (w h : ℕ) (p : ℤ × ℤ) : Prop :=
  0 ≤ p.1 ∧ p.1 < w ∧ 0 ≤ p.2 ∧ p.2 < h

instance (w h : ℕ) (p : ℤ × ℤ) : Decidable (inGrid w h p) := by
  unfold inGrid
  infer_instance

/-- Pointwise function update. -/
def updAt (g : ℤ × ℤ → ℕ) (p : ℤ × ℤ) (v : ℕ) : ℤ × ℤ → ℕ :=
  fun q => if q = p then v else g q

/-- Lines 62-69 of maze.py: clear wall bit `d` of cell `p` and the
complementary bit of the neighbour (the second write reads the grid after
the first write, as in the source). -/
def clearWalls (g : ℤ × ℤ → ℕ) (p : ℤ × ℤ) (d : Fin 4) : ℤ × ℤ → ℕ :=
  let g1 := updAt g p (clearBits (g p) (wallMask d))
  updAt g1 (nbr p d) (clearBits (g1 (nbr p d)) (oppMask (wallMask d)))

/-- Mark a cell visited. -/
def markVisited (f : ℤ × ℤ → Bool) (p : ℤ × ℤ) : ℤ × ℤ → Bool :=
  fun q => if q = p then true else f q

/-- `Maze._generate` with explicit fuel (the recursion depth is bounded by
the cell count; `Maze.generateO` passes `width * height`).  The oracle `o`
gives, for each cell, the shuffled order in which the four (wall, offset)
pairs are tried when that cell is expanded; a genuine `random.shuffle`
outcome is a bijection on `Fin 4`. -/
def generateAux (w h : ℕ) (o : ℤ × ℤ → Fin 4 → Fin 4) :
    ℕ → GenState → ℤ × ℤ → GenState
  | 0, s, _ => s
  | fuel + 1, s, p =>
    let s0 : GenState := ⟨s.grid, markVisited s.visited p⟩
    let step : GenState → Fin 4 → GenState := fun t d =>
      if inGrid w h (nbr p d) ∧ t.visited (nbr p d) = false then
        generateAux w h o fuel ⟨clearWalls t.grid p d, t.visited⟩ (nbr p d)
      else t
    step (step (step (step s0 (o p 0)) (o p 1)) (o p 2)) (o p 3)

/-- One iteration of the neighbour loop of `Maze._generate` (the `step`
closure of `generateAux`). -/
def genStep (w h : ℕ) (o : ℤ × ℤ → Fin 4 → Fin 4) (fuel : ℕ) (p : ℤ × ℤ)
    (t : GenState) (d : Fin 4) : GenState :=
  if inGrid w h (nbr p d) ∧ t.visited (nbr p d) = false then
    generateAux w h o fuel ⟨clearWalls t.grid p d, t.visited⟩ (nbr p d)
  else t

theorem generateAux_succ (w h : ℕ) (o : ℤ × ℤ → Fin 4 → Fin 4) (fuel : ℕ)
    (s : GenState) (p : ℤ × ℤ) :
    generateAux w h o (fuel + 1) s p =
      genStep w h o fuel p (genStep w h o fuel p (genStep w h o fuel p
        (genStep w h o fuel p ⟨s.grid, markVisited s.visited p⟩ (o p 0))
        (o p 1)) (o p 2)) (o p 3) := rfl

/-- `Maze.generate`: reset every mask to 15 and every visited flag, then
run `_generate(0, 0)`. -/
def Maze.generateO (m : Maze) (o : ℤ × ℤ → Fin 4 → Fin 4) : Maze :=
  ⟨m.width, m.height,
    (generateAux m.width m.height o (m.width * m.height)
      ⟨fun _ => 15, fun _ => false⟩ (0, 0)).grid⟩

/-- All in-range cells. -/
def cells (w h : ℕ) : Finset (ℤ × ℤ) :=
  Finset.Ico (0 : ℤ) w ×ˢ Finset.Ico (0 : ℤ) h

theorem mem_cells {w h : ℕ} {p : ℤ × ℤ} : p ∈ cells w h ↔ inGrid w h p := by
  cases p
  simp [cells, inGrid, Finset.mem_product, and_assoc]

theorem cells_card (w h : ℕ) : (cells w h).card = w * h := by
  simp [cells, Finset.card_product, Int.card_Ico]

theorem nbr_ne (p : ℤ × ℤ) (d : Fin 4) : nbr p d ≠ p := by
  fin_cases d <;> simp [nbr, dirOffset, Prod.ext_iff] <;> omega

theorem oppDir_oppDir (d : Fin 4) : oppDir (oppDir d) = d := by
  fin_cases d <;> rfl

theorem nbr_oppDir (p : ℤ × ℤ) (d : Fin 4) : nbr (nbr p d) (oppDir d) = p := by
  fin_cases d <;> cases p <;> simp [nbr, dirOffset, oppDir, Prod.ext_iff] <;> omega

theorem oppMask_wallMask (d : Fin 4) : oppMask (wallMask d) = wallMask (oppDir d) := by
  fin_cases d <;> rfl

/-- The wall bit of cell `p` on side `d` is cleared. -/
def wallAbsent (g : ℤ × ℤ → ℕ) (p : ℤ × ℤ) (d : Fin 4) : Prop :=
  g p &&& wallMask d = 0

instance (g : ℤ × ℤ → ℕ) (p : ℤ × ℤ) (d : Fin 4) : Decidable (wallAbsent g p d) := by
  unfold wallAbsent
  infer_instance

theorem clearBits_facts : ∀ v < 16, ∀ d e : Fin 4,
    (clearBits v (wallMask d) &&& wallMask e = 0 ↔ (e = d ∨ v &&& wallMask e = 0))
    ∧ clearBits v (wallMask d) < 16 := by decide

/-- Effect of `clearWalls` on absence of wall bits: exactly the two
complementary bits of the chosen pair get cleared. -/
theorem clearWalls_absent (g : ℤ × ℤ → ℕ) (hg : ∀ r, g r < 16) (p : ℤ × ℤ)
    (d : Fin 4) (r : ℤ × ℤ) (e : Fin 4) :
    wallAbsent (clearWalls g p d) r e
      ↔ wallAbsent g r e ∨ (r = p ∧ e = d) ∨ (r = nbr p d ∧ e = oppDir d) := by
  have hne : nbr p d ≠ p := nbr_ne p d
  unfold wallAbsent clearWalls
  by_cases hrq : r = nbr p d
  · subst hrq
    simp only [updAt, if_neg hne, oppMask_wallMask, eq_self_iff_true, if_true]
    rw [(clearBits_facts (g (nbr p d)) (hg _) (oppDir d) e).1]
    constructor
    · rintro (he | hab)
      · exact Or.inr (Or.inr ⟨trivial, he⟩)
      · exact Or.inl hab
    · rintro (hab | ⟨hrp, _⟩ | ⟨_, he⟩)
      · exact Or.inr hab
      · exact absurd hrp hne
      · exact Or.inl he
  · simp only [updAt, if_neg hrq]
    by_cases hrp : r = p
    · subst hrp
      simp only [eq_self_iff_true, if_true]
      rw [(clearBits_facts (g r) (hg r) d e).1]
      constructor
      · rintro (he | hab)
        · exact Or.inr (Or.inl ⟨trivial, he⟩)
        · exact Or.inl hab
      · rintro (hab | ⟨_, he⟩ | ⟨hrq', _⟩)
        · exact Or.inr hab
        · exact Or.inl he
        · exact absurd hrq' hrq
    · simp only [if_neg hrp]
      constructor
      · exact Or.inl
      · rintro (hab | ⟨hrp', _⟩ | ⟨hrq', _⟩)
        · exact hab
        · exact absurd hrp' hrp
        · exact absurd hrq' hrq

/-- `clearWalls` keeps every mask below 16. -/
theorem clearWalls_lt (g : ℤ × ℤ → ℕ) (hg : ∀ r, g r < 16) (p : ℤ × ℤ)
    (d : Fin 4) : ∀ r, clearWalls g p d r < 16 := by
  intro r
  have hne : nbr p d ≠ p := nbr_ne p d
  unfold clearWalls
  simp only [updAt, if_neg hne]
  split
  · rw [oppMask_wallMask]
    exact (clearBits_facts _ (hg _) (oppDir d) 0).2
  · split
    · exact (clearBits_facts _ (hg p) d 0).2
    · exact hg r

/-- The visited cells of a generation state (restricted to the grid). -/
def visitedSet (w h : ℕ) (s : GenState) : Finset (ℤ × ℤ) :=
  (cells w h).filter (fun p => s.visited p = true)

/-- The cleared wall-pairs, one canonical entry per adjacent pair: the wall
toward the neighbour below (d = 2) or to the right (d = 3), requiring both
complementary flags to be cleared. -/
def clearedPairs (w h : ℕ) (g : ℤ × ℤ → ℕ) : Finset ((ℤ × ℤ) × Fin 4) :=
  ((cells w h) ×ˢ ({2, 3} : Finset (Fin 4))).filter
    (fun e => nbr e.1 e.2 ∈ cells w h ∧ wallAbsent g e.1 e.2
      ∧ wallAbsent g (nbr e.1 e.2) (oppDir e.2))

/-- One directed step through a cleared wall between two in-grid cells. -/
def openStep (w h : ℕ) (g : ℤ × ℤ → ℕ) (a b : ℤ × ℤ) : Prop :=
  ∃ d, b = nbr a d ∧ a ∈ cells w h ∧ b ∈ cells w h ∧ wallAbsent g a d

/-- Connectivity through cleared walls. -/
def openConn (w h : ℕ) (g : ℤ × ℤ → ℕ) : ℤ × ℤ → ℤ × ℤ → Prop :=
  Relation.ReflTransGen (fun a b => openStep w h g a b ∨ openStep w h g b a)

theorem openConn_symm {w h : ℕ} {g : ℤ × ℤ → ℕ} {a b : ℤ × ℤ}
    (hab : openConn w h g a b) : openConn w h g b a :=
  Relation.ReflTransGen.symmetric (fun _ _ hxy => Or.symm hxy) hab

theorem openConn_mono {w h : ℕ} {g g' : ℤ × ℤ → ℕ}
    (hmono : ∀ r d, wallAbsent g r d → wallAbsent g' r d) {a b : ℤ × ℤ}
    (hab : openConn w h g a b) : openConn w h g' a b := by
  refine Relation.ReflTransGen.mono ?_ hab
  rintro x y (⟨d, h1, h2, h3, h4⟩ | ⟨d, h1, h2, h3, h4⟩)
  · exact Or.inl ⟨d, h1, h2, h3, hmono _ _ h4⟩
  · exact Or.inr ⟨d, h1, h2, h3, hmono _ _ h4⟩

/-- The (undirected) open-wall adjacency between two cells. -/
def mazeAdj (g : ℤ × ℤ → ℕ) (a b : ℤ × ℤ) : Prop :=
  (∃ d, b = nbr a d ∧ wallAbsent g a d) ∨ (∃ d, a = nbr b d ∧ wallAbsent g b d)

instance (g : ℤ × ℤ → ℕ) (a b : ℤ × ℤ) : Decidable (mazeAdj g a b) := by
  unfold mazeAdj
  infer_instance

/-- The graph on the grid cells whose edges are the cleared walls. -/
def mazeGraph (w h : ℕ) (g : ℤ × ℤ → ℕ) :
    SimpleGraph {r : ℤ × ℤ // r ∈ cells w h} where
  Adj a b := mazeAdj g a.1 b.1
  symm := by
    intro a b hab
    rcases hab with hd | hd
    · exact Or.inr hd
    · exact Or.inl hd
  loopless := by
    rintro a (⟨d, hd, _⟩ | ⟨d, hd, _⟩) <;> exact nbr_ne a.1 d hd.symm

/-- Every walk between distinct endpoints ends with an edge into its final
vertex. -/
theorem walk_last_edge {V : Type} {G : SimpleGraph V} :
    ∀ {x y : V} (pth : G.Walk x y), x ≠ y →
      ∃ u, G.Adj u y ∧ s(u, y) ∈ pth.edges := by
  intro x y pth
  induction pth with
  | nil => exact fun hxy => absurd rfl hxy
  | @cons u v m hadj q ih =>
    intro _
    by_cases hvm : v = m
    · subst hvm
      exact ⟨u, hadj, by simp⟩
    · obtain ⟨z, hz, hzmem⟩ := ih hvm
      exact ⟨z, hz, by simp [hzmem]⟩

/-- Adding an edge to a previously isolated vertex keeps a graph acyclic. -/
theorem isAcyclic_pendant {V : Type} [DecidableEq V] {G G' : SimpleGraph V}
    (hG : G.IsAcyclic) (a b : V)
    (hAdj : ∀ u v, G'.Adj u v ↔ G.Adj u v ∨ (u = a ∧ v = b) ∨ (u = b ∧ v = a))
    (hb : ∀ u, ¬ G.Adj b u) : G'.IsAcyclic := by
  intro x c hc
  by_cases hmem : b ∈ c.support
  · have hc' : (c.rotate hmem).IsCycle := hc.rotate hmem
    obtain ⟨v', hadj, rest, hrw⟩ :
        ∃ (v' : V) (hadj : G'.Adj b v') (rest : G'.Walk v' b),
          c.rotate hmem = SimpleGraph.Walk.cons hadj rest := by
      cases hcc : c.rotate hmem with
      | nil =>
        rw [hcc] at hc'
        exact absurd hc' SimpleGraph.Walk.IsCycle.not_of_nil
      | cons hadj rest => exact ⟨_, hadj, rest, rfl⟩
    rw [hrw] at hc'
    obtain ⟨hpath, hnotmem⟩ := (SimpleGraph.Walk.cons_isCycle_iff rest hadj).mp hc'
    have hv' : v' = a := by
      rcases (hAdj b v').mp hadj with hGbv | ⟨hba, hv'b⟩ | ⟨_, hv'a⟩
      · exact absurd hGbv (hb v')
      · exact absurd (hv'b ▸ hadj) (G'.irrefl)
      · exact hv'a
    have hv'ne : v' ≠ b := (hadj.ne).symm
    obtain ⟨z, hz, hzmem⟩ := walk_last_edge rest hv'ne
    have hz' : z = a := by
      rcases (hAdj z b).mp hz with hGzb | ⟨hza, _⟩ | ⟨hzb, hba⟩
      · exact absurd hGzb.symm (hb z)
      · exact hza
      · exact absurd (hzb ▸ hz) (G'.irrefl)
    rw [← hv'] at hz'
    rw [hz'] at hzmem
    rw [show s(v', b) = s(b, v') from Sym2.eq_swap] at hzmem
    exact hnotmem hzmem
  · have hsub : ∀ e ∈ c.edges, e ∈ G.edgeSet := by
      intro e he
      have he' : e ∈ G'.edgeSet := c.edges_subset_edgeSet he
      revert he he'
      induction e using Sym2.ind with
      | _ u v =>
        intro he he'
        rcases (hAdj u v).mp ((SimpleGraph.mem_edgeSet G').mp he') with hGuv | ⟨_, hvb⟩ | ⟨hub, _⟩
        · exact (SimpleGraph.mem_edgeSet G).mpr hGuv
        · exact absurd (hvb ▸ c.snd_mem_support_of_mem_edges he) hmem
        · exact absurd (hub ▸ c.fst_mem_support_of_mem_edges he) hmem
    exact hG (c.transfer G hsub) (hc.transfer hsub)

/-- Effect of `clearWalls` on the open-wall adjacency: exactly the pair
`p`—`nbr p d` is added. -/
theorem mazeAdj_clearWalls (g : ℤ × ℤ → ℕ) (hg : ∀ r, g r < 16) (p : ℤ × ℤ)
    (d : Fin 4) (a b : ℤ × ℤ) :
    mazeAdj (clearWalls g p d) a b
      ↔ mazeAdj g a b ∨ (a = p ∧ b = nbr p d) ∨ (a = nbr p d ∧ b = p) := by
  unfold mazeAdj
  constructor
  · rintro (⟨e, hbe, habs⟩ | ⟨e, hae, habs⟩)
    · rcases (clearWalls_absent g hg p d a e).mp habs with hold | ⟨hap, hed⟩ | ⟨haq, heo⟩
      · exact Or.inl (Or.inl ⟨e, hbe, hold⟩)
      · subst hap; subst hed
        exact Or.inr (Or.inl ⟨rfl, hbe⟩)
      · subst haq; subst heo
        rw [nbr_oppDir] at hbe
        exact Or.inr (Or.inr ⟨rfl, hbe⟩)
    · rcases (clearWalls_absent g hg p d b e).mp habs with hold | ⟨hbp, hed⟩ | ⟨hbq, heo⟩
      · exact Or.inl (Or.inr ⟨e, hae, hold⟩)
      · subst hbp; subst hed
        exact Or.inr (Or.inr ⟨hae, rfl⟩)
      · subst hbq; subst heo
        rw [nbr_oppDir] at hae
        exact Or.inr (Or.inl ⟨hae, rfl⟩)
  · rintro ((⟨e, hbe, habs⟩ | ⟨e, hae, habs⟩) | ⟨hap, hbq⟩ | ⟨haq, hbp⟩)
    · exact Or.inl ⟨e, hbe, (clearWalls_absent g hg p d a e).mpr (Or.inl habs)⟩
    · exact Or.inr ⟨e, hae, (clearWalls_absent g hg p d b e).mpr (Or.inl habs)⟩
    · refine Or.inl ⟨d, ?_, ?_⟩
      · rw [hbq, hap]
      · rw [hap]
        exact (clearWalls_absent g hg p d p d).mpr (Or.inr (Or.inl ⟨rfl, rfl⟩))
    · refine Or.inl ⟨oppDir d, ?_, ?_⟩
      · rw [hbp, haq, nbr_oppDir]
      · rw [haq]
        exact (clearWalls_absent g hg p d (nbr p d) (oppDir d)).mpr
          (Or.inr (Or.inr ⟨rfl, rfl⟩))

theorem nbr_left_cancel {r p : ℤ × ℤ} {d : Fin 4} (hrp : nbr r d = nbr p d) :
    r = p := by
  fin_cases d <;> cases r <;> cases p <;>
    simp only [nbr, dirOffset, Prod.ext_iff] at hrp ⊢ <;> omega

theorem oppDir_inj : ∀ {d e : Fin 4}, oppDir d = oppDir e → d = e := by decide

/-- The canonical representative of the wall-pair cleared by
`clearWalls g p d`: the downward/rightward side of the pair. -/
def canonPair (p : ℤ × ℤ) (d : Fin 4) : (ℤ × ℤ) × Fin 4 :=
  if (d : ℕ) < 2 then (nbr p d, oppDir d) else (p, d)

theorem canonPair_lt (p : ℤ × ℤ) (d : Fin 4) (hd : (d : ℕ) < 2) :
    canonPair p d = (nbr p d, oppDir d) := if_pos hd

theorem canonPair_ge (p : ℤ × ℤ) (d : Fin 4) (hd : ¬ (d : ℕ) < 2) :
    canonPair p d = (p, d) := if_neg hd

theorem mem_pair23 : ∀ {d : Fin 4}, (d = 2 ∨ d = 3) ↔ ¬ (d : ℕ) < 2 := by
  decide

theorem opp_lt_of_eq1 : ∀ {dd d : Fin 4}, oppDir dd = d → ¬ (dd : ℕ) < 2 →
    (d : ℕ) < 2 := by decide

theorem opp_lt_of_eq2 : ∀ {dd d : Fin 4}, dd = oppDir d → ¬ (dd : ℕ) < 2 →
    (d : ℕ) < 2 := by decide

theorem oppDir_23_of_lt : ∀ {d : Fin 4}, (d : ℕ) < 2 →
    (oppDir d = 2 ∨ oppDir d = 3) := by decide

/-- A pair whose wall is still present is not a cleared pair. -/
theorem canonPair_not_mem (w h : ℕ) (g : ℤ × ℤ → ℕ) (p : ℤ × ℤ) (d : Fin 4)
    (hnot : ¬ wallAbsent g p d) : canonPair p d ∉ clearedPairs w h g := by
  intro hmem
  simp only [clearedPairs, Finset.mem_filter] at hmem
  by_cases hd : (d : ℕ) < 2
  · rw [canonPair_lt p d hd] at hmem
    have hflag := hmem.2.2.2
    rw [nbr_oppDir, oppDir_oppDir] at hflag
    exact hnot hflag
  · rw [canonPair_ge p d hd] at hmem
    exact hnot hmem.2.2.1

/-- `clearWalls` adds exactly the canonical pair to the cleared set. -/
theorem clearedPairs_clearWalls (w h : ℕ) (g : ℤ × ℤ → ℕ) (hg : ∀ r, g r < 16)
    (p : ℤ × ℤ) (d : Fin 4) (hp : p ∈ cells w h) (hq : nbr p d ∈ cells w h) :
    clearedPairs w h (clearWalls g p d) = insert (canonPair p d) (clearedPairs w h g) := by
  ext e
  obtain ⟨r, dd⟩ := e
  simp only [clearedPairs, Finset.mem_filter, Finset.mem_insert, Finset.mem_product,
    Finset.mem_singleton]
  rw [clearWalls_absent g hg p d r dd,
    clearWalls_absent g hg p d (nbr r dd) (oppDir dd)]
  constructor
  · rintro ⟨⟨hrc, hdd⟩, hnc, hA, hB⟩
    have hdd2 : ¬ (dd : ℕ) < 2 := mem_pair23.mp hdd
    rcases hA with hAold | ⟨hrp, hdde⟩ | ⟨hrq, hddo⟩
    · rcases hB with hBold | ⟨hnp, hod⟩ | ⟨hnq, hoo⟩
      · exact Or.inr ⟨⟨hrc, hdd⟩, hnc, hAold, hBold⟩
      · left
        have hdlt : (d : ℕ) < 2 := opp_lt_of_eq1 hod hdd2
        rw [canonPair_lt p d hdlt]
        have h1 : nbr p d = r := by
          rw [← hod, ← hnp, nbr_oppDir]
        have h2 : oppDir d = dd := by
          rw [← hod, oppDir_oppDir]
        rw [h1, h2]
      · left
        have hde : dd = d := oppDir_inj hoo
        have hrp : r = p := nbr_left_cancel (hde ▸ hnq)
        rw [canonPair_ge p d (hde ▸ hdd2), hrp, hde]
    · left
      rw [canonPair_ge p d (hdde ▸ hdd2), hrp, hdde]
    · left
      have hdlt : (d : ℕ) < 2 := opp_lt_of_eq2 hddo hdd2
      rw [canonPair_lt p d hdlt, hrq, hddo]
  · rintro (hcanon | ⟨⟨hrc, hdd⟩, hnc, hA, hB⟩)
    · by_cases hd : (d : ℕ) < 2
      · rw [canonPair_lt p d hd] at hcanon
        have hr : r = nbr p d := congrArg Prod.fst hcanon
        have hddo : dd = oppDir d := congrArg Prod.snd hcanon
        refine ⟨⟨hr ▸ hq, ?_⟩, ?_, ?_, ?_⟩
        · rw [hddo]
          exact oppDir_23_of_lt hd
        · rw [hr, hddo, nbr_oppDir]
          exact hp
        · exact Or.inr (Or.inr ⟨hr, hddo⟩)
        · refine Or.inr (Or.inl ⟨?_, ?_⟩)
          · rw [hr, hddo, nbr_oppDir]
          · rw [hddo, oppDir_oppDir]
      · rw [canonPair_ge p d hd] at hcanon
        have hr : r = p := congrArg Prod.fst hcanon
        have hdde : dd = d := congrArg Prod.snd hcanon
        refine ⟨⟨hr ▸ hp, ?_⟩, ?_, ?_, ?_⟩
        · rw [hdde]
          exact mem_pair23.mpr hd
        · rw [hr, hdde]
          exact hq
        · exact Or.inr (Or.inl ⟨hr, hdde⟩)
        · refine Or.inr (Or.inr ⟨?_, ?_⟩)
          · rw [hr, hdde]
          · rw [hdde]
    · exact ⟨⟨hrc, hdd⟩, hnc, Or.inl hA, Or.inl hB⟩

theorem clearedPairs_clearWalls_card (w h : ℕ) (g : ℤ × ℤ → ℕ)
    (hg : ∀ r, g r < 16) (p : ℤ × ℤ) (d : Fin 4) (hp : p ∈ cells w h)
    (hq : nbr p d ∈ cells w h) (hnot : ¬ wallAbsent g p d) :
    (clearedPairs w h (clearWalls g p d)).card = (clearedPairs w h g).card + 1 := by
  rw [clearedPairs_clearWalls w h g hg p d hp hq]
  exact Finset.card_insert_of_not_mem (canonPair_not_mem w h g p d hnot)

/-- Precondition of a `_generate(p)` call: the cell `p` about to be
expanded is unvisited, and the state invariants hold with `p` playing the
role of an extra just-attached cell (the caller clears the wall into `p`
before `p` is marked visited). -/
structure GenPre (w h : ℕ) (s : GenState) (p : ℤ × ℤ) : Prop where
  bounded : ∀ r, s.grid r < 16
  sym : ∀ r d, r ∈ cells w h → nbr r d ∈ cells w h →
    (wallAbsent s.grid r d ↔ wallAbsent s.grid (nbr r d) (oppDir d))
  bdry : ∀ r d, r ∈ cells w h → nbr r d ∉ cells w h → ¬ wallAbsent s.grid r d
  edgesVisitedP : ∀ r d, r ∈ cells w h → nbr r d ∈ cells w h →
    wallAbsent s.grid r d →
      (s.visited r = true ∨ r = p) ∧ (s.visited (nbr r d) = true ∨ nbr r d = p)
  connP : ∀ a, a ∈ visitedSet w h s → openConn w h s.grid p a
  conn : ∀ a b, a ∈ visitedSet w h s → b ∈ visitedSet w h s →
    openConn w h s.grid a b
  acyc : (mazeGraph w h s.grid).IsAcyclic
  pin : p ∈ cells w h
  pnew : s.visited p = false
  count : (clearedPairs w h s.grid).card = (visitedSet w h s).card

/-- Postcondition of a `_generate(p)` call started in state `s`. -/
structure GenPost (w h : ℕ) (s : GenState) (p : ℤ × ℤ) (t : GenState) : Prop where
  bounded : ∀ r, t.grid r < 16
  sym : ∀ r d, r ∈ cells w h → nbr r d ∈ cells w h →
    (wallAbsent t.grid r d ↔ wallAbsent t.grid (nbr r d) (oppDir d))
  bdry : ∀ r d, r ∈ cells w h → nbr r d ∉ cells w h → ¬ wallAbsent t.grid r d
  edgesVisited : ∀ r d, r ∈ cells w h → nbr r d ∈ cells w h →
    wallAbsent t.grid r d → t.visited r = true ∧ t.visited (nbr r d) = true
  conn : ∀ a b, a ∈ visitedSet w h t → b ∈ visitedSet w h t →
    openConn w h t.grid a b
  acyc : (mazeGraph w h t.grid).IsAcyclic
  count : (clearedPairs w h t.grid).card + 1 = (visitedSet w h t).card
  monoV : ∀ r, s.visited r = true → t.visited r = true
  pvis : t.visited p = true
  subV : ∀ r, t.visited r = true → s.visited r = true ∨ r ∈ cells w h
  monoW : ∀ r d, wallAbsent s.grid r d → wallAbsent t.grid r d
  closure : ∀ r, t.visited r = true → s.visited r = false →
    ∀ d, nbr r d ∈ cells w h → t.visited (nbr r d) = true

/-- Invariants holding between iterations of the neighbour loop of a
`_generate(p)` call started in state `s` (`p` is already visited). -/
structure GenMid (w h : ℕ) (fuel : ℕ) (s : GenState) (p : ℤ × ℤ)
    (t : GenState) : Prop where
  bounded : ∀ r, t.grid r < 16
  sym : ∀ r d, r ∈ cells w h → nbr r d ∈ cells w h →
    (wallAbsent t.grid r d ↔ wallAbsent t.grid (nbr r d) (oppDir d))
  bdry : ∀ r d, r ∈ cells w h → nbr r d ∉ cells w h → ¬ wallAbsent t.grid r d
  edgesVisited : ∀ r d, r ∈ cells w h → nbr r d ∈ cells w h →
    wallAbsent t.grid r d → t.visited r = true ∧ t.visited (nbr r d) = true
  conn : ∀ a b, a ∈ visitedSet w h t → b ∈ visitedSet w h t →
    openConn w h t.grid a b
  acyc : (mazeGraph w h t.grid).IsAcyclic
  count : (clearedPairs w h t.grid).card + 1 = (visitedSet w h t).card
  fuelB : (cells w h).card - (visitedSet w h t).card ≤ fuel
  pvisM : t.visited p = true
  monoV : ∀ r, s.visited r = true → t.visited r = true
  subV : ∀ r, t.visited r = true → s.visited r = true ∨ r ∈ cells w h
  monoW : ∀ r d, wallAbsent s.grid r d → wallAbsent t.grid r d
  closureM : ∀ r, t.visited r = true → s.visited r = false → r ≠ p →
    ∀ d, nbr r d ∈ cells w h → t.visited (nbr r d) = true

theorem visitedSet_markVisited (w h : ℕ) (s : GenState) (p : ℤ × ℤ)
    (hp : p ∈ cells w h) :
    visitedSet w h ⟨s.grid, markVisited s.visited p⟩ = insert p (visitedSet w h s) := by
  ext r
  simp only [visitedSet, Finset.mem_filter, Finset.mem_insert, markVisited]
  by_cases hrp : r = p
  · subst hrp
    simp [hp]
  · simp [hrp]

theorem markVisited_true {f : ℤ × ℤ → Bool} {p r : ℤ × ℤ}
    (hf : f r = true ∨ r = p) : markVisited f p r = true := by
  unfold markVisited
  rcases hf with hf | hf
  · split <;> simp [hf]
  · simp [hf]

theorem visitedSet_same_visited (w h : ℕ) (g g' : ℤ × ℤ → ℕ) (v : ℤ × ℤ → Bool) :
    visitedSet w h ⟨g, v⟩ = visitedSet w h ⟨g', v⟩ := rfl

/-- A cell that an invariant-satisfying state has not visited is isolated
in the open-wall graph. -/
theorem isolated_of_unvisited (w h : ℕ) (t : GenState)
    (hev : ∀ r d, r ∈ cells w h → nbr r d ∈ cells w h →
      wallAbsent t.grid r d → t.visited r = true ∧ t.visited (nbr r d) = true)
    (q : ℤ × ℤ) (hq : q ∈ cells w h) (hqv : t.visited q = false) :
    ∀ u : {r : ℤ × ℤ // r ∈ cells w h}, ¬ (mazeGraph w h t.grid).Adj ⟨q, hq⟩ u := by
  rintro u (⟨d, hd, habs⟩ | ⟨d, hd, habs⟩)
  · have hcell : nbr q d ∈ cells w h := hd ▸ u.2
    have := (hev q d hq hcell habs).1
    rw [hqv] at this
    cases this
  · have hcell : nbr u.1 d ∈ cells w h := hd ▸ hq
    have := (hev u.1 d u.2 hcell habs).2
    rw [← hd, hqv] at this
    cases this

/-- Lifting `mazeAdj_clearWalls` to the graph on the cell subtype. -/
theorem mazeGraph_clearWalls_adj (w h : ℕ) (g : ℤ × ℤ → ℕ)
    (hg : ∀ r, g r < 16) (p : ℤ × ℤ) (d : Fin 4) (hp : p ∈ cells w h)
    (hq : nbr p d ∈ cells w h) :
    ∀ u v : {r : ℤ × ℤ // r ∈ cells w h},
      (mazeGraph w h (clearWalls g p d)).Adj u v ↔
        (mazeGraph w h g).Adj u v
        ∨ (u = ⟨p, hp⟩ ∧ v = ⟨nbr p d, hq⟩)
        ∨ (u = ⟨nbr p d, hq⟩ ∧ v = ⟨p, hp⟩) := by
  intro u v
  show mazeAdj (clearWalls g p d) u.1 v.1 ↔ _
  rw [mazeAdj_clearWalls g hg p d u.1 v.1]
  simp only [Subtype.ext_iff]
  rfl

/-- One iteration of the neighbour loop preserves the loop invariants; if
the neighbour in direction `d` is in the grid it is visited afterwards. -/
theorem genStep_mid (w h : ℕ) (o : ℤ × ℤ → Fin 4 → Fin 4) (fuel : ℕ)
    (ih : ∀ (s : GenState) (p : ℤ × ℤ), GenPre w h s p →
      (cells w h).card - (visitedSet w h s).card ≤ fuel →
      GenPost w h s p (generateAux w h o fuel s p))
    (s : GenState) (p : ℤ × ℤ) (hp : p ∈ cells w h)
    (t : GenState) (d : Fin 4) (hmid : GenMid w h fuel s p t) :
    GenMid w h fuel s p (genStep w h o fuel p t d)
    ∧ (∀ r, t.visited r = true → (genStep w h o fuel p t d).visited r = true)
    ∧ (nbr p d ∈ cells w h → (genStep w h o fuel p t d).visited (nbr p d) = true) := by
  unfold genStep
  by_cases hcond : inGrid w h (nbr p d) ∧ t.visited (nbr p d) = false
  · rw [if_pos hcond]
    obtain ⟨hqin, hqnew⟩ := hcond
    have hqmem : nbr p d ∈ cells w h := mem_cells.mpr hqin
    have hpmemV : p ∈ visitedSet w h t :=
      Finset.mem_filter.mpr ⟨hp, hmid.pvisM⟩
    have habs_new : wallAbsent (clearWalls t.grid p d) p d :=
      (clearWalls_absent t.grid hmid.bounded p d p d).mpr (Or.inr (Or.inl ⟨rfl, rfl⟩))
    have hnot_old : ¬ wallAbsent t.grid p d := by
      intro hab
      have hv := (hmid.edgesVisited p d hp hqmem hab).2
      rw [hqnew] at hv
      cases hv
    have hmonoW_c : ∀ r dd, wallAbsent t.grid r dd →
        wallAbsent (clearWalls t.grid p d) r dd := fun r dd hab =>
      (clearWalls_absent t.grid hmid.bounded p d r dd).mpr (Or.inl hab)
    have hpre : GenPre w h ⟨clearWalls t.grid p d, t.visited⟩ (nbr p d) :=
      { bounded := clearWalls_lt t.grid hmid.bounded p d
        sym := by
          intro r dd hr hn
          rw [show (⟨clearWalls t.grid p d, t.visited⟩ : GenState).grid =
            clearWalls t.grid p d from rfl]
          rw [clearWalls_absent t.grid hmid.bounded p d r dd,
            clearWalls_absent t.grid hmid.bounded p d (nbr r dd) (oppDir dd)]
          constructor
          · rintro (hold | ⟨hrp, hdd⟩ | ⟨hrq, hdd⟩)
            · exact Or.inl ((hmid.sym r dd hr hn).mp hold)
            · exact Or.inr (Or.inr ⟨by rw [hrp, hdd], by rw [hdd]⟩)
            · exact Or.inr (Or.inl ⟨by rw [hrq, hdd, nbr_oppDir],
                by rw [hdd, oppDir_oppDir]⟩)
          · rintro (hold | ⟨hnp, hdd⟩ | ⟨hnq, hdd⟩)
            · exact Or.inl ((hmid.sym r dd hr hn).mpr hold)
            · refine Or.inr (Or.inr ⟨?_, ?_⟩)
              · rw [← hnp, ← hdd, nbr_oppDir]
              · rw [← hdd, oppDir_oppDir]
            · have hdd' : dd = d := oppDir_inj hdd
              exact Or.inr (Or.inl ⟨nbr_left_cancel (hdd' ▸ hnq), hdd'⟩)
        bdry := by
          intro r dd hr hn
          rw [show (⟨clearWalls t.grid p d, t.visited⟩ : GenState).grid =
            clearWalls t.grid p d from rfl]
          rw [clearWalls_absent t.grid hmid.bounded p d r dd]
          rintro (hold | ⟨hrp, hdd⟩ | ⟨hrq, hdd⟩)
          · exact hmid.bdry r dd hr hn hold
          · exact hn (by rw [hrp, hdd]; exact hqmem)
          · exact hn (by rw [hrq, hdd, nbr_oppDir]; exact hp)
        edgesVisitedP := by
          intro r dd hr hn
          rw [show (⟨clearWalls t.grid p d, t.visited⟩ : GenState).grid =
            clearWalls t.grid p d from rfl]
          rw [clearWalls_absent t.grid hmid.bounded p d r dd]
          rintro (hold | ⟨hrp, hdd⟩ | ⟨hrq, hdd⟩)
          · obtain ⟨h1, h2⟩ := hmid.edgesVisited r dd hr hn hold
            exact ⟨Or.inl h1, Or.inl h2⟩
          · exact ⟨Or.inl (by rw [hrp]; exact hmid.pvisM),
              Or.inr (by rw [hrp, hdd])⟩
          · exact ⟨Or.inr hrq,
              Or.inl (by rw [hrq, hdd, nbr_oppDir]; exact hmid.pvisM)⟩
        connP := by
          intro a ha
          have hstep1 : openStep w h (clearWalls t.grid p d) p (nbr p d) :=
            ⟨d, rfl, hp, hqmem, habs_new⟩
          exact Relation.ReflTransGen.head (Or.inr hstep1)
            (openConn_mono hmonoW_c (hmid.conn p a hpmemV ha))
        conn := fun a b ha hb => openConn_mono hmonoW_c (hmid.conn a b ha hb)
        acyc := isAcyclic_pendant hmid.acyc ⟨p, hp⟩ ⟨nbr p d, hqmem⟩
          (mazeGraph_clearWalls_adj w h t.grid hmid.bounded p d hp hqmem)
          (isolated_of_unvisited w h t hmid.edgesVisited (nbr p d) hqmem hqnew)
        pin := hqmem
        pnew := hqnew
        count := by
          rw [show (⟨clearWalls t.grid p d, t.visited⟩ : GenState).grid =
            clearWalls t.grid p d from rfl]
          rw [clearedPairs_clearWalls_card w h t.grid hmid.bounded p d hp hqmem
            hnot_old]
          exact hmid.count }
    have hpost := ih ⟨clearWalls t.grid p d, t.visited⟩ (nbr p d) hpre hmid.fuelB
    refine ⟨?_, fun r hr => hpost.monoV r hr, fun _ => hpost.pvis⟩
    refine
      { bounded := hpost.bounded
        sym := hpost.sym
        bdry := hpost.bdry
        edgesVisited := hpost.edgesVisited
        conn := hpost.conn
        acyc := hpost.acyc
        count := hpost.count
        fuelB := ?_
        pvisM := hpost.monoV p hmid.pvisM
        monoV := fun r hr => hpost.monoV r (hmid.monoV r hr)
        subV := fun r hr => (hpost.subV r hr).elim (fun h1 => hmid.subV r h1) Or.inr
        monoW := fun r dd hab => hpost.monoW r dd (hmonoW_c r dd (hmid.monoW r dd hab))
        closureM := ?_ }
    · have hsub : insert (nbr p d) (visitedSet w h t)
          ⊆ visitedSet w h (generateAux w h o fuel ⟨clearWalls t.grid p d, t.visited⟩ (nbr p d)) := by
        intro r hr
        rcases Finset.mem_insert.mp hr with rfl | hr
        · exact Finset.mem_filter.mpr ⟨hqmem, hpost.pvis⟩
        · have hrr := Finset.mem_filter.mp hr
          exact Finset.mem_filter.mpr ⟨hrr.1, hpost.monoV r hrr.2⟩
      have hnotmem : nbr p d ∉ visitedSet w h t := by
        intro hmem
        rw [(Finset.mem_filter.mp hmem).2] at hqnew
        cases hqnew
      have hcard : (visitedSet w h t).card + 1
          ≤ (visitedSet w h (generateAux w h o fuel
              ⟨clearWalls t.grid p d, t.visited⟩ (nbr p d))).card := by
        rw [← Finset.card_insert_of_not_mem hnotmem]
        exact Finset.card_le_card hsub
      have hfb := hmid.fuelB
      omega
    · intro r hrv hrs hrp dd hnd
      by_cases hrt : t.visited r = true
      · exact hpost.monoV _ (hmid.closureM r hrt hrs hrp dd hnd)
      · have hrt' : t.visited r = false := by
          cases htv : t.visited r
          · rfl
          · exact absurd htv hrt
        exact hpost.closure r hrv hrt' dd hnd
  · rw [if_neg hcond]
    refine ⟨hmid, fun r hr => hr, ?_⟩
    intro hmem
    by_contra hvis
    have hfalse : t.visited (nbr p d) = false := by
      cases htv : t.visited (nbr p d)
      · rfl
      · exact absurd htv hvis
    exact hcond ⟨mem_cells.mp hmem, hfalse⟩

/-- Main specification of `Maze._generate`: started on an unvisited cell
in a state satisfying the call invariants with enough fuel, it returns a
state satisfying the post invariants (spanning-forest bookkeeping, wall
symmetry, boundary walls, connectivity of the visited region, acyclicity,
and closure of the newly visited region under adjacency). -/
theorem generateAux_spec (w h : ℕ) (o : ℤ × ℤ → Fin 4 → Fin 4)
    (ho : ∀ r, Function.Surjective (o r)) :
    ∀ (fuel : ℕ) (s : GenState) (p : ℤ × ℤ), GenPre w h s p →
      (cells w h).card - (visitedSet w h s).card ≤ fuel →
      GenPost w h s p (generateAux w h o fuel s p) := by
  intro fuel
  induction fuel with
  | zero =>
    intro s p hpre hfuel
    exfalso
    have hsub : visitedSet w h s ⊆ cells w h := Finset.filter_subset _ _
    have hpmem : p ∉ visitedSet w h s := by
      intro hmem
      have hv := (Finset.mem_filter.mp hmem).2
      rw [hpre.pnew] at hv
      cases hv
    have hlt : (visitedSet w h s).card < (cells w h).card :=
      Finset.card_lt_card ((Finset.ssubset_iff_of_subset hsub).mpr
        ⟨p, hpre.pin, hpmem⟩)
    omega
  | succ fuel ih =>
    intro s p hpre hfuel
    rw [generateAux_succ]
    have hvs0 : visitedSet w h ⟨s.grid, markVisited s.visited p⟩
        = insert p (visitedSet w h s) :=
      visitedSet_markVisited w h s p hpre.pin
    have hpnotmem : p ∉ visitedSet w h s := by
      intro hmem
      have := (Finset.mem_filter.mp hmem).2
      rw [hpre.pnew] at this
      cases this
    have hmid0 : GenMid w h fuel s p ⟨s.grid, markVisited s.visited p⟩ :=
      { bounded := hpre.bounded
        sym := hpre.sym
        bdry := hpre.bdry
        edgesVisited := by
          intro r dd hr hn hab
          obtain ⟨h1, h2⟩ := hpre.edgesVisitedP r dd hr hn hab
          exact ⟨markVisited_true h1, markVisited_true h2⟩
        conn := by
          intro a b ha hb
          rw [hvs0] at ha hb
          rcases Finset.mem_insert.mp ha with ha' | ha' <;>
            rcases Finset.mem_insert.mp hb with hb' | hb'
          · rw [ha', hb']
            exact Relation.ReflTransGen.refl
          · rw [ha']
            exact hpre.connP b hb'
          · rw [hb']
            exact openConn_symm (hpre.connP a ha')
          · exact hpre.conn a b ha' hb'
        acyc := hpre.acyc
        count := by
          rw [hvs0, Finset.card_insert_of_not_mem hpnotmem]
          exact congrArg (· + 1) hpre.count
        fuelB := by
          rw [hvs0, Finset.card_insert_of_not_mem hpnotmem]
          omega
        pvisM := by simp [markVisited]
        monoV := fun r hr => markVisited_true (Or.inl hr)
        subV := by
          intro r hr
          by_cases hrp : r = p
          · exact Or.inr (hrp ▸ hpre.pin)
          · simp only [markVisited, if_neg hrp] at hr
            exact Or.inl hr
        monoW := fun r dd hab => hab
        closureM := by
          intro r hrv hrs hrp dd hnd
          exfalso
          by_cases hrp' : r = p
          · exact hrp hrp'
          · simp only [markVisited, if_neg hrp'] at hrv
            rw [hrs] at hrv
            cases hrv }
    have hstep := genStep_mid w h o fuel ih s p hpre.pin
    obtain ⟨hmid1, hm1, hd1⟩ := hstep ⟨s.grid, markVisited s.visited p⟩ (o p 0) hmid0
    obtain ⟨hmid2, hm2, hd2⟩ := hstep _ (o p 1) hmid1
    obtain ⟨hmid3, hm3, hd3⟩ := hstep _ (o p 2) hmid2
    obtain ⟨hmid4, hm4, hd4⟩ := hstep _ (o p 3) hmid3
    have hpclo : ∀ dd : Fin 4, nbr p dd ∈ cells w h →
        (genStep w h o fuel p (genStep w h o fuel p (genStep w h o fuel p
          (genStep w h o fuel p ⟨s.grid, markVisited s.visited p⟩ (o p 0))
          (o p 1)) (o p 2)) (o p 3)).visited (nbr p dd) = true := by
      intro dd hnd
      obtain ⟨i, hi⟩ := ho p dd
      fin_cases i
      · rw [← hi] at hnd ⊢
        exact hm4 _ (hm3 _ (hm2 _ (hd1 hnd)))
      · rw [← hi] at hnd ⊢
        exact hm4 _ (hm3 _ (hd2 hnd))
      · rw [← hi] at hnd ⊢
        exact hm4 _ (hd3 hnd)
      · rw [← hi] at hnd ⊢
        exact hd4 hnd
    exact
      { bounded := hmid4.bounded
        sym := hmid4.sym
        bdry := hmid4.bdry
        edgesVisited := hmid4.edgesVisited
        conn := hmid4.conn
        acyc := hmid4.acyc
        count := hmid4.count
        monoV := hmid4.monoV
        pvis := hmid4.pvisM
        subV := hmid4.subV
        monoW := hmid4.monoW
        closure := by
          intro r hrv hrs dd hnd
          by_cases hrp : r = p
          · rw [hrp] at hnd ⊢
            exact hpclo dd hnd
          · exact hmid4.closureM r hrv hrs hrp dd hnd }

/-- The generation invariants hold after `generate()` on any maze of
positive size, for every shuffle oracle. -/
theorem generate_post (w h : ℕ) (hw : 1 ≤ w) (hh : 1 ≤ h)
    (o : ℤ × ℤ → Fin 4 → Fin 4) (ho : ∀ r, Function.Surjective (o r)) :
    GenPost w h ⟨fun _ => 15, fun _ => false⟩ (0, 0)
      (generateAux w h o (w * h) ⟨fun _ => 15, fun _ => false⟩ (0, 0)) := by
  have habs15 : ∀ (r : ℤ × ℤ) (d : Fin 4), ¬ wallAbsent (fun _ => 15) r d := by
    intro r d
    have hmask : ∀ dd : Fin 4, ¬ ((15 : ℕ) &&& wallMask dd = 0) := by decide
    exact hmask d
  have hvempty : visitedSet w h ⟨fun _ => 15, fun _ => false⟩ = ∅ := by
    ext r
    simp [visitedSet]
  have hcempty : clearedPairs w h (fun _ => 15) = ∅ := by
    ext e
    simp only [clearedPairs, Finset.mem_filter, Finset.not_mem_empty, iff_false,
      not_and]
    intro _ _ hab _
    exact habs15 _ _ hab
  apply generateAux_spec w h o ho
  · exact
      { bounded := fun _ => by norm_num
        sym := fun r d _ _ => iff_of_false (habs15 r d) (habs15 _ _)
        bdry := fun r d _ _ => habs15 r d
        edgesVisitedP := fun r d _ _ hab => absurd hab (habs15 r d)
        connP := by
          intro a ha
          rw [hvempty] at ha
          cases Finset.not_mem_empty a ha
        conn := by
          intro a b ha _
          rw [hvempty] at ha
          cases Finset.not_mem_empty a ha
        acyc := by
          intro v c hc
          cases c with
          | nil => exact absurd hc SimpleGraph.Walk.IsCycle.not_of_nil
          | cons hadj rest =>
            have hadj' : mazeAdj (fun _ => (15 : ℕ)) _ _ := hadj
            rcases hadj' with ⟨dd, _, hab⟩ | ⟨dd, _, hab⟩ <;> exact habs15 _ _ hab
        pin := mem_cells.mpr (by
          unfold inGrid
          refine ⟨le_refl 0, ?_, le_refl 0, ?_⟩ <;> simp <;> omega)
        pnew := rfl
        count := by
          rw [hvempty, hcempty]
          simp }
  · rw [hvempty, Finset.card_empty, cells_card]
    omega

/-- After `generate()` every cell of the grid is visited. -/
theorem generate_all_visited (w h : ℕ) (hw : 1 ≤ w) (hh : 1 ≤ h)
    (o : ℤ × ℤ → Fin 4 → Fin 4) (ho : ∀ r, Function.Surjective (o r)) :
    ∀ (i j : ℕ), i < w → j < h →
      (generateAux w h o (w * h) ⟨fun _ => 15, fun _ => false⟩ (0, 0)).visited
        ((i : ℤ), (j : ℤ)) = true := by
  have hpost := generate_post w h hw hh o ho
  have key : ∀ (n i j : ℕ), i + j = n → i < w → j < h →
      (generateAux w h o (w * h) ⟨fun _ => 15, fun _ => false⟩ (0, 0)).visited
        ((i : ℤ), (j : ℤ)) = true := by
    intro n
    induction n using Nat.strong_induction_on with
    | _ n ihn =>
      intro i j hij hiw hjh
      rcases Nat.eq_zero_or_pos i with hi0 | hipos
      · rcases Nat.eq_zero_or_pos j with hj0 | hjpos
        · rw [hi0, hj0]
          simpa using hpost.pvis
        · have hprev := ihn (i + (j - 1)) (by omega) i (j - 1) rfl hiw (by omega)
          have hnd : nbr ((i : ℤ), ((j - 1 : ℕ) : ℤ)) 2 ∈ cells w h := by
            rw [mem_cells]
            simp only [nbr, dirOffset, inGrid]
            constructor
            · omega
            · refine ⟨by omega, by omega, by omega⟩
          have hcl := hpost.closure _ hprev rfl 2 hnd
          have heq : nbr ((i : ℤ), ((j - 1 : ℕ) : ℤ)) 2 = ((i : ℤ), (j : ℤ)) := by
            simp only [nbr, dirOffset, Prod.ext_iff]
            constructor <;> omega
          rw [heq] at hcl
          exact hcl
      · have hprev := ihn ((i - 1) + j) (by omega) (i - 1) j rfl (by omega) hjh
        have hnd : nbr (((i - 1 : ℕ) : ℤ), (j : ℤ)) 3 ∈ cells w h := by
          rw [mem_cells]
          simp only [nbr, dirOffset, inGrid]
          constructor
          · omega
          · refine ⟨by omega, by omega, by omega⟩
        have hcl := hpost.closure _ hprev rfl 3 hnd
        have heq : nbr (((i - 1 : ℕ) : ℤ), (j : ℤ)) 3 = ((i : ℤ), (j : ℤ)) := by
          simp only [nbr, dirOffset, Prod.ext_iff]
          constructor <;> omega
        rw [heq] at hcl
        exact hcl
  intro i j hiw hjh
  exact key (i + j) i j rfl hiw hjh

/-- After `generate()` the visited set is the whole grid. -/
theorem generate_visitedSet_eq (w h : ℕ) (hw : 1 ≤ w) (hh : 1 ≤ h)
    (o : ℤ × ℤ → Fin 4 → Fin 4) (ho : ∀ r, Function.Surjective (o r)) :
    visitedSet w h
      (generateAux w h o (w * h) ⟨fun _ => 15, fun _ => false⟩ (0, 0))
      = cells w h := by
  apply Finset.filter_true_of_mem
  intro r hr
  obtain ⟨h1, h2, h3, h4⟩ := mem_cells.mp hr
  have hrw : (((r.1.toNat : ℕ) : ℤ), ((r.2.toNat : ℕ) : ℤ)) = r := by
    cases r
    simp only [Prod.ext_iff]
    constructor <;> simp_all <;> omega
  rw [← hrw]
  exact generate_all_visited w h hw hh o ho r.1.toNat r.2.toNat (by omega) (by omega)

/-- Connectivity through cleared walls yields graph reachability. -/
theorem openConn_reachable {w h : ℕ} {g : ℤ × ℤ → ℕ} :
    ∀ {a b : ℤ × ℤ}, openConn w h g a b →
      ∀ (ha : a ∈ cells w h) (hb : b ∈ cells w h),
        (mazeGraph w h g).Reachable ⟨a, ha⟩ ⟨b, hb⟩ := by
  intro a b hconn
  induction hconn with
  | refl => exact fun ha hb => SimpleGraph.Reachable.refl _
  | @tail c b hsteps hstep ihsteps =>
    intro ha hb
    rcases hstep with ⟨dd, hbe, hcm, hbm, hab⟩ | ⟨dd, hce, hbm, hcm, hab⟩
    · exact SimpleGraph.Reachable.trans (ihsteps ha hcm)
        (SimpleGraph.Adj.reachable (Or.inl ⟨dd, hbe, hab⟩))
    · exact SimpleGraph.Reachable.trans (ihsteps ha hcm)
        (SimpleGraph.Adj.reachable (Or.inr ⟨dd, hce, hab⟩))

theorem origin_mem_cells {w h : ℕ} (hw : 1 ≤ w) (hh : 1 ≤ h) :
    ((0 : ℤ), (0 : ℤ)) ∈ cells w h := by
  rw [mem_cells]
  unfold inGrid
  refine ⟨le_refl 0, by omega, le_refl 0, by omega⟩

/-- C1: for every maze size with width ≥ 1 and height ≥ 1 and every outcome
of the random neighbour shuffles (modelled by an arbitrary per-cell
permutation oracle), after `generate()` the maze is a spanning tree of the
grid graph: exactly `width*height - 1` wall-pairs have been cleared, and
the open-wall graph on the cells is connected and acyclic, with exactly
one simple path between any two cells. -/
theorem generate_spanning_tree (w h : ℕ) (hw : 1 ≤ w) (hh : 1 ≤ h)
    (o : ℤ × ℤ → Fin 4 → Fin 4) (ho : ∀ r, Function.Bijective (o r)) :
    (clearedPairs w h ((Maze.init w h).generateO o).grid).card = w * h - 1
    ∧ (mazeGraph w h ((Maze.init w h).generateO o).grid).IsTree
    ∧ (∀ u v : {r : ℤ × ℤ // r ∈ cells w h},
        ∃! pth : (mazeGraph w h ((Maze.init w h).generateO o).grid).Walk u v,
          pth.IsPath) := by
  have hos : ∀ r, Function.Surjective (o r) := fun r => (ho r).surjective
  have hpost := generate_post w h hw hh o hos
  have hvis := generate_visitedSet_eq w h hw hh o hos
  have hgrid : ((Maze.init w h).generateO o).grid
      = (generateAux w h o (w * h) ⟨fun _ => 15, fun _ => false⟩ (0, 0)).grid := rfl
  rw [hgrid]
  have hcount :
      (clearedPairs w h (generateAux w h o (w * h)
        ⟨fun _ => 15, fun _ => false⟩ (0, 0)).grid).card = w * h - 1 := by
    have hc := hpost.count
    rw [hvis, cells_card] at hc
    omega
  have hconn : (mazeGraph w h (generateAux w h o (w * h)
      ⟨fun _ => 15, fun _ => false⟩ (0, 0)).grid).Connected := by
    rw [SimpleGraph.connected_iff]
    constructor
    · intro u v
      have h1 : u.1 ∈ visitedSet w h
          (generateAux w h o (w * h) ⟨fun _ => 15, fun _ => false⟩ (0, 0)) := by
        rw [hvis]
        exact u.2
      have h2 : v.1 ∈ visitedSet w h
          (generateAux w h o (w * h) ⟨fun _ => 15, fun _ => false⟩ (0, 0)) := by
        rw [hvis]
        exact v.2
      exact openConn_reachable (hpost.conn u.1 v.1 h1 h2) u.2 v.2
    · exact ⟨⟨((0 : ℤ), (0 : ℤ)), origin_mem_cells hw hh⟩⟩
  have htree : (mazeGraph w h (generateAux w h o (w * h)
      ⟨fun _ => 15, fun _ => false⟩ (0, 0)).grid).IsTree := ⟨hconn, hpost.acyc⟩
  exact ⟨hcount, htree,
    (SimpleGraph.isTree_iff_existsUnique_path.mp htree).2⟩

/-- Witness for `generate_spanning_tree` on a concrete 2×2 maze with the
identity shuffle oracle. -/
theorem generate_spanning_tree_witness :
    (clearedPairs 2 2 ((Maze.init 2 2).generateO (fun _ => id)).grid).card
      = 2 * 2 - 1
    ∧ (mazeGraph 2 2 ((Maze.init 2 2).generateO (fun _ => id)).grid).IsTree
    ∧ (∀ u v : {r : ℤ × ℤ // r ∈ cells 2 2},
        ∃! pth :
          (mazeGraph 2 2 ((Maze.init 2 2).generateO (fun _ => id)).grid).Walk u v,
          pth.IsPath) :=
  generate_spanning_tree 2 2 (by norm_num) (by norm_num) (fun _ => id)
    (fun _ => Function.bijective_id)

theorem wallAbsent_const15 (r : ℤ × ℤ) (d : Fin 4) :
    ¬ wallAbsent (fun _ => (15 : ℕ)) r d := by
  have hmask : ∀ dd : Fin 4, ¬ ((15 : ℕ) &&& wallMask dd = 0) := by decide
  exact hmask d

/-- `cell_at` on in-range nonnegative coordinates decodes the stored mask
of that cell. -/
theorem cellAt_in_range (m : Maze) (x y : ℤ) (hx0 : 0 ≤ x) (hxw : x < m.width)
    (hy0 : 0 ≤ y) (hyh : y < m.height) :
    m.cellAt x y = Except.ok ⟨x, y,
      decide (m.grid (x, y) &&& 2 ≠ 0), decide (m.grid (x, y) &&& 8 ≠ 0),
      decide (m.grid (x, y) &&& 1 ≠ 0), decide (m.grid (x, y) &&& 4 ≠ 0)⟩ := by
  unfold Maze.cellAt
  rw [npIndex_eq, npIndex_eq, if_pos ⟨by omega, hyh⟩, if_pos ⟨by omega, hxw⟩,
    Int.emod_eq_of_lt hy0 hyh, Int.emod_eq_of_lt hx0 hxw]

/-- The mazes producible by the public API: constructed with nonnegative
sizes, then any number of `generate()` calls, each with a genuine shuffle
outcome (a per-cell permutation oracle). -/
inductive MazeReachable : Maze → Prop
  | init (w h : ℕ) : MazeReachable (Maze.init w h)
  | gen (m : Maze) (o : ℤ × ℤ → Fin 4 → Fin 4)
      (ho : ∀ r, Function.Bijective (o r)) (hm : MazeReachable m) :
      MazeReachable (m.generateO o)

/-- Grid-level wall symmetry for every reachable maze. -/
theorem reachable_sym (m : Maze) (hm : MazeReachable m) :
    ∀ r d, r ∈ cells m.width m.height → nbr r d ∈ cells m.width m.height →
      (wallAbsent m.grid r d ↔ wallAbsent m.grid (nbr r d) (oppDir d)) := by
  induction hm with
  | init w h =>
    intro r d _ _
    exact iff_of_false (wallAbsent_const15 r d) (wallAbsent_const15 _ _)
  | gen m' o ho hm' ih =>
    intro r d hr hn
    by_cases hwh : 1 ≤ m'.width ∧ 1 ≤ m'.height
    · exact (generate_post m'.width m'.height hwh.1 hwh.2 o
        (fun q => (ho q).surjective)).sym r d hr hn
    · exfalso
      obtain ⟨h1, h2, h3, h4⟩ := mem_cells.mp hr
      have h2' : r.1 < (m'.width : ℤ) := h2
      have h4' : r.2 < (m'.height : ℤ) := h4
      rcases not_and_or.mp hwh with hcon | hcon <;> omega

/-- C2: for every reachable maze (freshly constructed or after any number
of `generate()` calls) and every pair of horizontally or vertically
adjacent in-range cells, the wall flag reported by `cell_at` on the side
facing the neighbour equals the flag reported on the neighbour's opposite
side. -/
theorem wall_symmetry (m : Maze) (hm : MazeReachable m) (x y : ℤ) :
    ((0 ≤ x ∧ x + 1 < m.width ∧ 0 ≤ y ∧ y < m.height) →
      (m.cellAt x y).map Cell.right = (m.cellAt (x + 1) y).map Cell.left)
    ∧ ((0 ≤ x ∧ x < m.width ∧ 0 ≤ y ∧ y + 1 < m.height) →
      (m.cellAt x y).map Cell.bottom = (m.cellAt x (y + 1)).map Cell.top) := by
  have hsym := reachable_sym m hm
  constructor
  · rintro ⟨hx0, hxw, hy0, hyh⟩
    have hr : (x, y) ∈ cells m.width m.height :=
      mem_cells.mpr ⟨hx0, by omega, hy0, hyh⟩
    have hnbr : nbr (x, y) 3 = (x + 1, y) := by
      simp [nbr, dirOffset]
    have hn : nbr (x, y) 3 ∈ cells m.width m.height := by
      rw [hnbr]
      exact mem_cells.mpr ⟨by omega, hxw, hy0, hyh⟩
    have hiff := hsym (x, y) 3 hr hn
    rw [hnbr] at hiff
    have hbool : decide (m.grid (x, y) &&& 8 ≠ 0)
        = decide (m.grid (x + 1, y) &&& 2 ≠ 0) := by
      rw [decide_eq_decide]
      exact not_iff_not.mpr hiff
    rw [cellAt_in_range m x y hx0 (by omega) hy0 hyh,
      cellAt_in_range m (x + 1) y (by omega) hxw hy0 hyh]
    simp only [Except.map]
    rw [hbool]
  · rintro ⟨hx0, hxw, hy0, hyh⟩
    have hr : (x, y) ∈ cells m.width m.height :=
      mem_cells.mpr ⟨hx0, hxw, hy0, by omega⟩
    have hnbr : nbr (x, y) 2 = (x, y + 1) := by
      simp [nbr, dirOffset]
    have hn : nbr (x, y) 2 ∈ cells m.width m.height := by
      rw [hnbr]
      exact mem_cells.mpr ⟨hx0, hxw, by omega, hyh⟩
    have hiff := hsym (x, y) 2 hr hn
    rw [hnbr] at hiff
    have hbool : decide (m.grid (x, y) &&& 4 ≠ 0)
        = decide (m.grid (x, y + 1) &&& 1 ≠ 0) := by
      rw [decide_eq_decide]
      exact not_iff_not.mpr hiff
    rw [cellAt_in_range m x y hx0 hxw hy0 (by omega),
      cellAt_in_range m x (y + 1) hx0 hxw (by omega) hyh]
    simp only [Except.map]
    rw [hbool]

/-- Witness for `wall_symmetry` on a generated 2×2 maze at the pair
(0, 0)–(1, 0). -/
theorem wall_symmetry_witness :
    (((Maze.init 2 2).generateO (fun _ => id)).cellAt 0 0).map Cell.right
      = (((Maze.init 2 2).generateO (fun _ => id)).cellAt 1 0).map Cell.left :=
  ((wall_symmetry ((Maze.init 2 2).generateO (fun _ => id))
      (MazeReachable.gen (Maze.init 2 2) (fun _ => id)
        (fun _ => Function.bijective_id) (MazeReachable.init 2 2)) 0 0).1
    (by
      refine ⟨le_refl 0, ?_, le_refl 0, ?_⟩
      · show (0 : ℤ) + 1 < ((2 : ℕ) : ℤ)
        norm_num
      · show (0 : ℤ) < ((2 : ℕ) : ℤ)
        norm_num))

/-- C7 counterexample: with the identity shuffle at every cell,
`Maze(2,1).generate()` opens the single interior wall on BOTH sides:
`cell_at(0,0).right` and `cell_at(1,0).left` are both false, so it is not
the case that exactly one of the two flags is false. -/
theorem gen21_not_exactly_one :
    ¬(((((Maze.init 2 1).generateO (fun _ => id)).cellAt 0 0).map Cell.right
          = Except.ok false)
        ↔ ¬((((Maze.init 2 1).generateO (fun _ => id)).cellAt 1 0).map Cell.left
          = Except.ok false)) := by decide

/-- C7 (amended): after `Maze(2,1).generate()`, for every shuffle outcome,
BOTH `cell_at(0,0).right` and `cell_at(1,0).left` are false — the single
shared wall is open, reported open from both sides, as wall symmetry
forces — and all six outer walls of the two cells are true. -/
theorem gen21_shared_wall_open (o : ℤ × ℤ → Fin 4 → Fin 4)
    (ho : ∀ r, Function.Bijective (o r)) :
    ((((Maze.init 2 1).generateO o).cellAt 0 0).map Cell.right = Except.ok false)
    ∧ ((((Maze.init 2 1).generateO o).cellAt 1 0).map Cell.left = Except.ok false)
    ∧ ((((Maze.init 2 1).generateO o).cellAt 0 0).map Cell.left = Except.ok true)
    ∧ ((((Maze.init 2 1).generateO o).cellAt 0 0).map Cell.top = Except.ok true)
    ∧ ((((Maze.init 2 1).generateO o).cellAt 0 0).map Cell.bottom = Except.ok true)
    ∧ ((((Maze.init 2 1).generateO o).cellAt 1 0).map Cell.right = Except.ok true)
    ∧ ((((Maze.init 2 1).generateO o).cellAt 1 0).map Cell.top = Except.ok true)
    ∧ ((((Maze.init 2 1).generateO o).cellAt 1 0).map Cell.bottom = Except.ok true) := by
  have hos : ∀ r, Function.Surjective (o r) := fun r => (ho r).surjective
  have hpost := generate_post 2 1 (by norm_num) (by norm_num) o hos
  have hvis := generate_visitedSet_eq 2 1 (by norm_num) (by norm_num) o hos
  have hm00 : ((0 : ℤ), (0 : ℤ)) ∈ cells 2 1 :=
    origin_mem_cells (by norm_num) (by norm_num)
  have hm10 : ((1 : ℤ), (0 : ℤ)) ∈ cells 2 1 :=
    mem_cells.mpr ⟨by norm_num, by norm_num, le_refl 0, by norm_num⟩
  -- the interior pair is the unique cleared pair
  have hcount : (clearedPairs 2 1 (generateAux 2 1 o (2 * 1)
      ⟨fun _ => 15, fun _ => false⟩ (0, 0)).grid).card = 1 := by
    have hc := hpost.count
    rw [hvis, cells_card] at hc
    omega
  obtain ⟨e, he⟩ := Finset.card_pos.mp
    (by rw [hcount]; norm_num :
      0 < (clearedPairs 2 1 (generateAux 2 1 o (2 * 1)
        ⟨fun _ => 15, fun _ => false⟩ (0, 0)).grid).card)
  obtain ⟨a, dd⟩ := e
  simp only [clearedPairs, Finset.mem_filter, Finset.mem_product, Finset.mem_insert,
    Finset.mem_singleton] at he
  obtain ⟨⟨hac, hdd⟩, hnc, hab1, hab2⟩ := he
  obtain ⟨ha1, ha2, ha3, ha4⟩ := mem_cells.mp hac
  obtain ⟨hn1, hn2, hn3, hn4⟩ := mem_cells.mp hnc
  rcases hdd with hdd | hdd
  · exfalso
    rw [hdd] at hn4
    have hnn2 : (nbr a 2).2 = a.2 + 1 := by simp [nbr, dirOffset]
    omega
  · rw [hdd] at hab1 hab2 hn1 hn2
    have hnn1 : (nbr a 3).1 = a.1 + 1 := by simp [nbr, dirOffset]
    have hax : a.1 = 0 := by omega
    have hay : a.2 = 0 := by omega
    have ha : a = ((0 : ℤ), (0 : ℤ)) := Prod.ext hax hay
    rw [ha] at hab1 hab2
    -- transport the two open flags and the six boundary walls to the
    -- public maze (all are definitional identifications)
    have hops1 : ((Maze.init 2 1).generateO o).grid (0, 0) &&& 8 = 0 := hab1
    have hops2 : ((Maze.init 2 1).generateO o).grid (1, 0) &&& 2 = 0 := hab2
    have hb1 : ((Maze.init 2 1).generateO o).grid (0, 0) &&& 2 ≠ 0 :=
      hpost.bdry ((0 : ℤ), (0 : ℤ)) 1 hm00 (by
        intro hc
        exact absurd (show (0 : ℤ) ≤ -1 from (mem_cells.mp hc).1) (by norm_num))
    have hb2 : ((Maze.init 2 1).generateO o).grid (0, 0) &&& 1 ≠ 0 :=
      hpost.bdry ((0 : ℤ), (0 : ℤ)) 0 hm00 (by
        intro hc
        exact absurd (show (0 : ℤ) ≤ -1 from (mem_cells.mp hc).2.2.1) (by norm_num))
    have hb3 : ((Maze.init 2 1).generateO o).grid (0, 0) &&& 4 ≠ 0 :=
      hpost.bdry ((0 : ℤ), (0 : ℤ)) 2 hm00 (by
        intro hc
        exact absurd (show (1 : ℤ) < ((1 : ℕ) : ℤ) from (mem_cells.mp hc).2.2.2)
          (by norm_num))
    have hb4 : ((Maze.init 2 1).generateO o).grid (1, 0) &&& 8 ≠ 0 :=
      hpost.bdry ((1 : ℤ), (0 : ℤ)) 3 hm10 (by
        intro hc
        exact absurd (show (2 : ℤ) < ((2 : ℕ) : ℤ) from (mem_cells.mp hc).2.1)
          (by norm_num))
    have hb5 : ((Maze.init 2 1).generateO o).grid (1, 0) &&& 1 ≠ 0 :=
      hpost.bdry ((1 : ℤ), (0 : ℤ)) 0 hm10 (by
        intro hc
        exact absurd (show (0 : ℤ) ≤ -1 from (mem_cells.mp hc).2.2.1) (by norm_num))
    have hb6 : ((Maze.init 2 1).generateO o).grid (1, 0) &&& 4 ≠ 0 :=
      hpost.bdry ((1 : ℤ), (0 : ℤ)) 2 hm10 (by
        intro hc
        exact absurd (show (1 : ℤ) < ((1 : ℕ) : ℤ) from (mem_cells.mp hc).2.2.2)
          (by norm_num))
    have hcell00 := cellAt_in_range ((Maze.init 2 1).generateO o) 0 0
      (le_refl 0) (show (0 : ℤ) < ((2 : ℕ) : ℤ) by norm_num) (le_refl 0)
      (show (0 : ℤ) < ((1 : ℕ) : ℤ) by norm_num)
    have hcell10 := cellAt_in_range ((Maze.init 2 1).generateO o) 1 0
      (by norm_num) (show (1 : ℤ) < ((2 : ℕ) : ℤ) by norm_num) (le_refl 0)
      (show (0 : ℤ) < ((1 : ℕ) : ℤ) by norm_num)
    rw [hcell00, hcell10]
    simp only [Except.map]
    refine ⟨?_, ?_, ?_, ?_, ?_, ?_, ?_, ?_⟩
    · rw [decide_eq_false (not_not_intro hops1)]
    · rw [decide_eq_false (not_not_intro hops2)]
    · rw [decide_eq_true hb1]
    · rw [decide_eq_true hb2]
    · rw [decide_eq_true hb3]
    · rw [decide_eq_true hb4]
    · rw [decide_eq_true hb5]
    · rw [decide_eq_true hb6]

/-- Witness for `gen21_shared_wall_open` with the identity shuffle. -/
theorem gen21_shared_wall_open_witness :
    ((((Maze.init 2 1).generateO (fun _ => id)).cellAt 0 0).map Cell.right
      = Except.ok false)
    ∧ ((((Maze.init 2 1).generateO (fun _ => id)).cellAt 1 0).map Cell.left
      = Except.ok false) :=
  ⟨(gen21_shared_wall_open (fun _ => id) (fun _ => Function.bijective_id)).1,
    (gen21_shared_wall_open (fun _ => id) (fun _ => Function.bijective_id)).2.1⟩

end BlindMaze
